import Mathlib

/-
Verification development for the ozz-animation offline animation optimizer
(include/ozz/animation/offline/animation_optimizer.h).

The repository sources provide the interface header only; the algorithm bodies
(AnimationOptimizer::operator(), AnimationConstantOptimizer::operator()) are
modelled from the design specification. Machine floats are rendered as exact
rationals; every comparison of a euclidean or angular deviation against a
tolerance is carried out on squared quantities, which is equivalent for
non-negative tolerances and keeps all definitions executable.
-/

/-- Absolute value on rationals, written explicitly to keep kernel evaluation
predictable in concrete computations. -/
def qabs (x : ℚ) : ℚ := if x < 0 then -x else x

/-- A 3d vector of rationals, the model of ozz::math::Float3 values used by
translation and scale keyframes. -/
structure Vec3 where
  x : ℚ
  y : ℚ
  z : ℚ
deriving DecidableEq

/-- A quaternion of rationals, the model of ozz::math::Quaternion values used
by rotation keyframes. -/
structure Quat where
  x : ℚ
  y : ℚ
  z : ℚ
  w : ℚ
deriving DecidableEq

/-- Squared euclidean distance between two vectors. -/
def sqDist3 (a b : Vec3) : ℚ :=
  (a.x - b.x) ^ 2 + (a.y - b.y) ^ 2 + (a.z - b.z) ^ 2

/-- Componentwise linear interpolation between two vectors. -/
def lerp3 (a b : Vec3) (r : ℚ) : Vec3 :=
  ⟨a.x + r * (b.x - a.x), a.y + r * (b.y - a.y), a.z + r * (b.z - a.z)⟩

/-- Quaternion dot product. -/
def dot4 (a b : Quat) : ℚ := a.x * b.x + a.y * b.y + a.z * b.z + a.w * b.w

/-- Squared norm of a quaternion. -/
def qnorm2 (a : Quat) : ℚ := dot4 a a

/-- Componentwise linear interpolation between two quaternions (the rational
model of ozz lerp-based quaternion blending). -/
def lerp4 (a b : Quat) (r : ℚ) : Quat :=
  ⟨a.x + r * (b.x - a.x), a.y + r * (b.y - a.y), a.z + r * (b.z - a.z),
    a.w + r * (b.w - a.w)⟩

/-- Modelled from the spec: the rotation error measure of the track decimator
(spec 4.2), "angular deviation converted to an equivalent displacement at
distance". For orientations `a` and `b` whose half angle is `h` (so
`cos h = dot a b / (norm a * norm b)`), the chord displacement of a point at
distance `d` is `2 * d * sin h`; its square is `4 * d^2 * (1 - cos h ^ 2)`,
an exact rational. Degenerate zero-norm quaternions yield no displacement. -/
def sqRotErr (d : ℚ) (a b : Quat) : ℚ :=
  if qnorm2 a = 0 ∨ qnorm2 b = 0 then 0
  else 4 * d ^ 2 * (1 - (dot4 a b) ^ 2 / (qnorm2 a * qnorm2 b))

/-- A keyframe: a time stamp and a value (spec 3, Keyframe). -/
structure Keyframe (V : Type) where
  time : ℚ
  value : V
deriving DecidableEq

/-- The per-kind operations the track decimator needs: a default value, the
interpolation operator and the squared error measure (at a skinning
distance). -/
structure TrackMetric (V : Type) where
  dflt : V
  lerp : V → V → ℚ → V
  sqErr : ℚ → V → V → ℚ

/-- Metric for translation and scale tracks: componentwise lerp, euclidean
offset distance (spec 4.2: "translation/scale: Euclidean distance of the
offset", independent of the skinning distance). -/
def vec3Metric : TrackMetric Vec3 :=
  ⟨⟨0, 0, 0⟩, lerp3, fun _ a b => sqDist3 a b⟩

/-- Metric for rotation tracks: componentwise quaternion lerp and the angular
deviation converted to a displacement at the resolved distance. -/
def quatMetric : TrackMetric Quat :=
  ⟨⟨0, 0, 0, 1⟩, lerp4, sqRotErr⟩

/-- Evaluation of a track tail starting at keyframe `k`: clamps before the
first and after the last keyframe, interpolates in between (the sampling
model of ozz raw-animation tracks). -/
def evalFrom {V : Type} (M : TrackMetric V) : Keyframe V → List (Keyframe V) → ℚ → V
  | k, [], _ => k.value
  | k, k2 :: rest, t =>
    if t ≤ k.time then k.value
    else if t ≤ k2.time then M.lerp k.value k2.value ((t - k.time) / (k2.time - k.time))
    else evalFrom M k2 rest t

/-- Evaluate a whole track at time `t`. -/
def evalTrack {V : Type} (M : TrackMetric V) (l : List (Keyframe V)) (t : ℚ) : V :=
  match l with
  | [] => M.dflt
  | k :: rest => evalFrom M k rest t

/-- Modelled from the spec: the worst-case (squared) error of a candidate
track, measured by re-evaluating the candidate at every original sample time
and comparing with the original value there (spec 4.2, error measure). -/
def trackSqError {V : Type} (M : TrackMetric V) (d : ℚ) (orig cand : List (Keyframe V)) : ℚ :=
  (orig.map (fun k => M.sqErr d (evalTrack M cand k.time) k.value)).foldl max 0

/-- A candidate removal: the time of the keyframe proposed for removal, the
worst-case squared error of the remaining track, and that remaining track. -/
structure Candidate (V : Type) where
  time : ℚ
  err2 : ℚ
  track : List (Keyframe V)

/-- Modelled from the spec: all interior keyframe removals of the current
track (first and last keyframes are never candidates, spec 3 and 4.2). -/
def interiorCandidates {V : Type} (M : TrackMetric V) (d : ℚ)
    (orig cur : List (Keyframe V)) : List (Candidate V) :=
  (List.range' 1 (cur.length - 2)).map (fun i =>
    let t := cur.eraseIdx i
    { time := (cur.getD i (Keyframe.mk 0 M.dflt)).time
      err2 := trackSqError M d orig t
      track := t })

/-- Lexicographic preference between candidates: strictly smaller error wins,
and ties on the error are broken by the lower removal time (spec 4.2,
determinism). -/
def betterCand {V : Type} (a b : Candidate V) : Bool :=
  decide (a.err2 < b.err2) || (decide (a.err2 = b.err2) && decide (a.time ≤ b.time))

/-- Select the best candidate of a non-empty list, keeping the current best on
full ties, so the first minimal element in list order is chosen. -/
def selectBest {V : Type} : Candidate V → List (Candidate V) → Candidate V
  | best, [] => best
  | best, c :: cs => selectBest (if betterCand best c then best else c) cs

/-- Modelled from the spec: the acceptance test of the decimator, the exact
rational rendering of "worst-case error ≤ resolved budget" for a real-valued
error: the budget is non-negative and the squared error is at most the squared
budget. -/
def accepts (budget err2 : ℚ) : Bool :=
  decide (0 ≤ budget) && decide (err2 ≤ budget ^ 2)

/-- The model of AnimationOptimizer::Observer::Data
(animation_optimizer.h:112-125): one snapshot per attempted keyframe removal.
The field modelling hierarchy_error_ratio is named hierarchyWeight here. -/
structure ObsData where
  iteration : ℕ
  joint : ℕ
  ty : ℕ
  target_error : ℚ
  distance : ℚ
  original_size : ℕ
  validated_size : ℕ
  candidate_size : ℕ
  own_tolerance : ℚ
  own_error : ℚ
  hierarchyWeight : ℚ
  optimization_delta : ℚ
deriving DecidableEq

/-- The static per-track context of one decimation: joint index, track kind
tag (0 translation, 1 rotation, 2 scale), skinning distance, resolved error
budget, the joint's own tolerance, the hierarchy weight, and the original
track size. -/
structure DecimCtx where
  joint : ℕ
  ty : ℕ
  origLen : ℕ
  d : ℚ
  budget : ℚ
  ownTol : ℚ
  weight : ℚ
deriving DecidableEq

/-- Build the observer record for one attempted removal. -/
def mkObsData (ctx : DecimCtx) (iter clen : ℕ) (err2 : ℚ) : ObsData :=
  { iteration := iter
    joint := ctx.joint
    ty := ctx.ty
    target_error := ctx.budget
    distance := ctx.d
    original_size := ctx.origLen
    validated_size := clen
    candidate_size := clen - 1
    own_tolerance := ctx.ownTol
    own_error := err2
    hierarchyWeight := ctx.weight
    optimization_delta := ctx.budget ^ 2 - err2 }

/-- Modelled from the spec: the greedy decimation loop of the Track Decimator
(spec 4.2). Each iteration forms all interior removal candidates of the
current validated set, selects the one with the least worst-case error (ties
by lowest time), reports it to the observer when one is set, and accepts it
when the error fits the budget; the loop stops at the first rejected or
cancelled attempt. The fuel argument bounds the iteration count by the track
length; it never runs out because each accepted removal shrinks the track.
Returns the final validated track and the list of observer records pushed. -/
def decimateLoop {V : Type} (M : TrackMetric V) (obs : Option (ObsData → Bool))
    (ctx : DecimCtx) (orig : List (Keyframe V)) :
    ℕ → ℕ → List (Keyframe V) → List (Keyframe V) × List ObsData
  | 0, _, cur => (cur, [])
  | fuel + 1, iter, cur =>
    match interiorCandidates M ctx.d orig cur with
    | [] => (cur, [])
    | c :: cs =>
      let best := selectBest c cs
      let data := mkObsData ctx iter cur.length best.err2
      let keep : Bool := match obs with | none => true | some f => f data
      let trace1 : List ObsData := match obs with | none => [] | some _ => [data]
      if keep then
        if accepts ctx.budget best.err2 then
          let r := decimateLoop M obs ctx orig fuel (iter + 1) best.track
          (r.1, trace1 ++ r.2)
        else (cur, trace1)
      else (cur, trace1)

/-- Decimate one track: run the greedy loop from the original track. -/
def decimateTrack {V : Type} (M : TrackMetric V) (obs : Option (ObsData → Bool))
    (ctx : DecimCtx) (orig : List (Keyframe V)) : List (Keyframe V) × List ObsData :=
  decimateLoop M obs ctx orig orig.length 0 orig

/-- Optimization settings (animation_optimizer.h:74-91): the hierarchy error
tolerance and the skinning distance at which the error is measured. -/
structure Setting where
  tolerance : ℚ
  distance : ℚ
deriving DecidableEq

/-- The default settings of AnimationOptimizer() (animation_optimizer.h:77-78):
tolerance 1e-3 (1mm), distance 1e-1 (10cm). -/
def defaultSetting : Setting := ⟨1 / 1000, 1 / 10⟩

/-- The model of ozz::map from joint index to Setting override
(animation_optimizer.h:98): an association list with unique keys reachable
through lookup and insert. -/
def lookupOverride (m : List (ℕ × Setting)) (j : ℕ) : Option Setting :=
  match m.find? (fun e => e.1 == j) with
  | some e => some e.2
  | none => none

/-- Insert or replace the override of one joint, the model of map assignment. -/
def insertOverride (m : List (ℕ × Setting)) (j : ℕ) (s : Setting) : List (ℕ × Setting) :=
  match m with
  | [] => [(j, s)]
  | e :: t => if e.1 = j then (j, s) :: t else e :: insertOverride t j s

/-- The joint's own setting: its override when present, the global setting
otherwise (spec 3, JointsSetting). -/
def ownSettingOf (g : Setting) (m : List (ℕ × Setting)) (j : ℕ) : Setting :=
  (lookupOverride m j).getD g

/-- The skeleton model (spec 2 and 9): an arena of joints indexed by integer
id, each storing its parent index, none for a root. In a well-formed skeleton
every parent precedes its children. -/
structure Skeleton where
  parents : List (Option ℕ)
deriving DecidableEq

/-- Number of joints of the skeleton. -/
def Skeleton.num_joints (s : Skeleton) : ℕ := s.parents.length

/-- Well-formedness of the parent arena: every stored parent index is smaller
than its child's index, decided over the whole arena. -/
def validParentsB (s : Skeleton) : Bool :=
  (List.range s.parents.length).all (fun c =>
    match s.parents.getD c none with
    | some p => decide (p < c)
    | none => true)

/-- The children of joint `j` in the arena. -/
def childrenOf (parents : List (Option ℕ)) (j : ℕ) : List ℕ :=
  (List.range parents.length).filter (fun c => parents.getD c none == some j)

/-- Modelled from the spec: the Hierarchical Tolerance Resolver implemented as
the bottom-up post-order propagation suggested in spec 9: the value of a joint
is the minimum of its own tolerance and of the already-resolved values of its
children. The fuel argument bounds the recursion depth; `parents.length` is
always enough for a well-formed arena. -/
def resolveAux (own : ℕ → ℚ) (parents : List (Option ℕ)) : ℕ → ℕ → ℚ
  | 0, j => own j
  | fuel + 1, j =>
    (childrenOf parents j).foldl (fun m c => min m (resolveAux own parents fuel c)) (own j)

/-- Is `j` an ancestor-or-self of `k`, following at most `fuel` parent links
upward from `k`, stepping only along links that decrease the index. -/
def chainUp (parents : List (Option ℕ)) (j : ℕ) : ℕ → ℕ → Bool
  | 0, _ => false
  | fuel + 1, k =>
    k == j ||
      match parents.getD k none with
      | some p => decide (p < k) && chainUp parents j fuel p
      | none => false

/-- `k` lies in the subtree rooted at `j` (equivalently, `j` is an
ancestor-or-self of `k`); `k + 1` parent steps always suffice since each step
decreases the index. -/
def inSubtree (parents : List (Option ℕ)) (j k : ℕ) : Bool :=
  chainUp parents j (k + 1) k

/-- The specification-side resolver (spec 4.1): the minimum, over all joints
of the subtree rooted at `j` (j included), of the joint's own tolerance. -/
def subtreeMinSpec (own : ℕ → ℚ) (parents : List (Option ℕ)) (j : ℕ) : ℚ :=
  ((List.range parents.length).filter (fun k => inSubtree parents j k)).foldl
    (fun m k => min m (own k)) (own j)

/-- The model of AnimationOptimizer (animation_optimizer.h:58-105): the global
setting, the per-joint overrides, and the optional observer. -/
structure AnimationOptimizer where
  setting : Setting
  joints_setting_override : List (ℕ × Setting)
  observer : Option (ObsData → Bool)

/-- The per-joint own tolerance induced by an optimizer's configuration. -/
def ownTolFn (opt : AnimationOptimizer) : ℕ → ℚ :=
  fun j => (ownSettingOf opt.setting opt.joints_setting_override j).tolerance

/-- The resolved (hierarchy-aware) tolerance of a joint. -/
def resolvedToleranceOf (opt : AnimationOptimizer) (skel : Skeleton) (j : ℕ) : ℚ :=
  resolveAux (ownTolFn opt) skel.parents skel.num_joints j

/-- Modelled from the spec: the hierarchy error ratio of a joint (spec 4.1 and
the open question of spec 9): the fraction of the joint's own error budget
that remains after the subtree tightening, taken as resolved / own tolerance
(1 for a zero own budget). -/
def hierarchyWeightOf (opt : AnimationOptimizer) (skel : Skeleton) (j : ℕ) : ℚ :=
  if ownTolFn opt j = 0 then 1 else resolvedToleranceOf opt skel j / ownTolFn opt j

/-- The resolved error budget of a joint: its own tolerance weighted by the
hierarchy error ratio. -/
def budgetOf (opt : AnimationOptimizer) (skel : Skeleton) (j : ℕ) : ℚ :=
  ownTolFn opt j * hierarchyWeightOf opt skel j

/-- The resolved skinning distance of a joint: its own setting's distance
(spec 4.1 allows resolving the distance from the joint's own setting). -/
def distOf (opt : AnimationOptimizer) (j : ℕ) : ℚ :=
  (ownSettingOf opt.setting opt.joints_setting_override j).distance

/-- The three tracks of one joint (spec 3, RawAnimation: a translation, a
rotation and a scale track per joint). -/
structure JointTracks where
  translations : List (Keyframe Vec3)
  rotations : List (Keyframe Quat)
  scales : List (Keyframe Vec3)
deriving DecidableEq

/-- The joint-track set with three empty tracks. -/
def emptyJointTracks : JointTracks := ⟨[], [], []⟩

/-- The model of offline RawAnimation: a duration and one track set per
joint. -/
structure RawAnimation where
  duration : ℚ
  tracks : List JointTracks
deriving DecidableEq

/-- Strictly increasing key times, decided pairwise. -/
def timesSortedB {V : Type} : List (Keyframe V) → Bool
  | [] => true
  | [_] => true
  | a :: b :: t => decide (a.time < b.time) && timesSortedB (b :: t)

/-- One track is valid when it is non-empty, strictly increasing in time, and
all its key times lie within the animation duration (spec 3, Track
invariant, and RawAnimation::Validate). -/
def validTrackB {V : Type} (dur : ℚ) (l : List (Keyframe V)) : Bool :=
  !l.isEmpty && timesSortedB l &&
    l.all (fun k => decide (0 ≤ k.time) && decide (k.time ≤ dur))

/-- Modelled from the spec: the structural validation of a raw animation
(spec 4.4): positive duration and valid tracks everywhere. -/
def RawAnimation.Validate (a : RawAnimation) : Bool :=
  decide (0 < a.duration) &&
    a.tracks.all (fun jt =>
      validTrackB a.duration jt.translations &&
        validTrackB a.duration jt.rotations && validTrackB a.duration jt.scales)

/-- Validity of an animation against a skeleton: structural validity plus the
joint-count match (spec 4.4). -/
def validWith (skel : Skeleton) (a : RawAnimation) : Bool :=
  a.Validate && (a.tracks.length == skel.num_joints)

/-- The empty, valid animation to which the output is reset on failure. -/
def emptyAnimation : RawAnimation := { duration := 1, tracks := [] }

/-- The decimation context of one (joint, kind) track. -/
def trackCtx (opt : AnimationOptimizer) (skel : Skeleton) (j ty origLen : ℕ) : DecimCtx :=
  { joint := j
    ty := ty
    origLen := origLen
    d := distOf opt j
    budget := budgetOf opt skel j
    ownTol := ownTolFn opt j
    weight := hierarchyWeightOf opt skel j }

/-- Optimize the three tracks of one joint. -/
def optimizeJointTracks (opt : AnimationOptimizer) (skel : Skeleton) (j : ℕ)
    (jt : JointTracks) : JointTracks :=
  { translations :=
      (decimateTrack vec3Metric opt.observer (trackCtx opt skel j 0 jt.translations.length)
        jt.translations).1
    rotations :=
      (decimateTrack quatMetric opt.observer (trackCtx opt skel j 1 jt.rotations.length)
        jt.rotations).1
    scales :=
      (decimateTrack vec3Metric opt.observer (trackCtx opt skel j 2 jt.scales.length)
        jt.scales).1 }

/-- Modelled from the spec: assembly of the optimized animation (spec 4.4):
same duration, every joint's tracks decimated under the joint's resolved
budget and distance. -/
def buildOptimized (opt : AnimationOptimizer) (input : RawAnimation)
    (skel : Skeleton) : RawAnimation :=
  { duration := input.duration
    tracks := (List.range input.tracks.length).map (fun j =>
      optimizeJointTracks opt skel j (input.tracks.getD j emptyJointTracks)) }

/-- Modelled from the spec: AnimationOptimizer::operator()
(animation_optimizer.h:70-71, spec 4.4 and 7). The output pointer is an
`Option RawAnimation`: `none` is the null pointer, `some` holds the prior
pointee. A null output fails immediately with nothing written; otherwise the
optimized animation is assembled and structurally validated (including the
joint-count match), and on validation failure the output is reset to the
empty, valid animation with a false return. -/
def AnimationOptimizer.run (opt : AnimationOptimizer) (input : RawAnimation)
    (skel : Skeleton) (out : Option RawAnimation) : Bool × Option RawAnimation :=
  match out with
  | none => (false, none)
  | some _ =>
    let b := buildOptimized opt input skel
    if validWith skel b then (true, some b) else (false, some emptyAnimation)

/-- The call-frame rendering of the const member call
`bool AnimationOptimizer::operator()(const RawAnimation&, const Skeleton&,
RawAnimation*) const`: the post-state of the optimizer, the input animation
and the skeleton are returned alongside the result, and being const they are
the pre-states unchanged. -/
def AnimationOptimizer.call (opt : AnimationOptimizer) (input : RawAnimation)
    (skel : Skeleton) (out : Option RawAnimation) :
    AnimationOptimizer × RawAnimation × Skeleton × (Bool × Option RawAnimation) :=
  (opt, input, skel, opt.run input skel out)

/-- The model of AnimationConstantOptimizer (animation_optimizer.h:132-153). -/
structure AnimationConstantOptimizer where
  translation_tolerance : ℚ
  rotation_tolerance : ℚ
  scale_tolerance : ℚ
deriving DecidableEq

/-- Modelled from the spec: a vector track is constant within tolerance when
every keyframe value is within euclidean distance `tol` of the first
keyframe's value (spec 4.3), rendered on squared quantities. -/
def vecConstantB (tol : ℚ) (l : List (Keyframe Vec3)) : Bool :=
  match l with
  | [] => true
  | k :: t =>
    decide (0 ≤ tol) && t.all (fun k2 => decide (sqDist3 k2.value k.value ≤ tol ^ 2))

/-- The quaternion comparison of ozz::math, configured by the cosine of half
the tolerance angle (animation_optimizer.h:146-148): the two orientations are
within tolerance when the absolute dot product reaches that cosine. -/
def quatCompare (a b : Quat) (cosHalf : ℚ) : Bool :=
  decide (cosHalf ≤ qabs (dot4 a b))

/-- Modelled from the spec: a rotation track is constant within tolerance when
every keyframe compares equal to the first keyframe under the cosine-of-half-
angle comparison (spec 4.3). -/
def quatConstantB (cosHalf : ℚ) (l : List (Keyframe Quat)) : Bool :=
  match l with
  | [] => true
  | k :: t => t.all (fun k2 => quatCompare k2.value k.value cosHalf)

/-- Modelled from the spec: collapse a constant track to the single keyframe
holding the constant (its first keyframe); leave a non-constant track
unchanged (spec 4.3). -/
def collapseTrack {V : Type} (isConst : Bool) (l : List (Keyframe V)) : List (Keyframe V) :=
  if isConst then
    match l with
    | [] => []
    | k :: _ => [k]
  else l

/-- Strip the constant tracks of one joint, each kind with its own metric and
tolerance; no hierarchy information is consulted. -/
def stripJointTracks (copt : AnimationConstantOptimizer) (jt : JointTracks) : JointTracks :=
  { translations :=
      collapseTrack (vecConstantB copt.translation_tolerance jt.translations) jt.translations
    rotations :=
      collapseTrack (quatConstantB copt.rotation_tolerance jt.rotations) jt.rotations
    scales := collapseTrack (vecConstantB copt.scale_tolerance jt.scales) jt.scales }

/-- Assembly of the constant-optimized animation. -/
def buildConstant (copt : AnimationConstantOptimizer) (input : RawAnimation) : RawAnimation :=
  { duration := input.duration
    tracks := input.tracks.map (stripJointTracks copt) }

/-- Modelled from the spec: AnimationConstantOptimizer::operator()
(animation_optimizer.h:141, spec 4.4): null output fails immediately,
otherwise the stripped animation is assembled, validated, and on failure the
output is reset to the empty, valid animation. It takes no skeleton. -/
def AnimationConstantOptimizer.run (copt : AnimationConstantOptimizer)
    (input : RawAnimation) (out : Option RawAnimation) : Bool × Option RawAnimation :=
  match out with
  | none => (false, none)
  | some _ =>
    let b := buildConstant copt input
    if b.Validate then (true, some b) else (false, some emptyAnimation)

/-- The call-frame rendering of the const member call
`bool AnimationConstantOptimizer::operator()(const RawAnimation&,
RawAnimation*) const`. -/
def AnimationConstantOptimizer.call (copt : AnimationConstantOptimizer)
    (input : RawAnimation) (out : Option RawAnimation) :
    AnimationConstantOptimizer × RawAnimation × (Bool × Option RawAnimation) :=
  (copt, input, copt.run input out)

theorem foldlMin_le_init {ι : Type} (g : ι → ℚ) (l : List ι) (a : ℚ) :
    l.foldl (fun m k => min m (g k)) a ≤ a := by
  induction l generalizing a with
  | nil => exact le_refl a
  | cons x t ih =>
    exact le_trans (ih (min a (g x))) (min_le_left a (g x))

theorem foldlMin_le_elem {ι : Type} (g : ι → ℚ) {l : List ι} {x : ι} (hx : x ∈ l) (a : ℚ) :
    l.foldl (fun m k => min m (g k)) a ≤ g x := by
  induction l generalizing a with
  | nil => cases hx
  | cons y t ih =>
    rcases List.mem_cons.mp hx with h | h
    · subst h
      exact le_trans (foldlMin_le_init g t (min a (g x))) (min_le_right a (g x))
    · exact ih h (min a (g y))

theorem le_foldlMin {ι : Type} (g : ι → ℚ) (l : List ι) {a c : ℚ} (ha : c ≤ a)
    (h : ∀ x ∈ l, c ≤ g x) : c ≤ l.foldl (fun m k => min m (g k)) a := by
  induction l generalizing a with
  | nil => exact ha
  | cons y t ih =>
    exact ih (le_min ha (h y (List.mem_cons_self y t))) (fun x hx => h x (List.mem_cons_of_mem y hx))

theorem foldlMin_mono {ι : Type} (g g' : ι → ℚ) (l : List ι) {a a' : ℚ} (haa : a ≤ a')
    (h : ∀ x ∈ l, g x ≤ g' x) :
    l.foldl (fun m k => min m (g k)) a ≤ l.foldl (fun m k => min m (g' k)) a' := by
  induction l generalizing a a' with
  | nil => exact haa
  | cons y t ih =>
    exact ih (min_le_min haa (h y (List.mem_cons_self y t)))
      (fun x hx => h x (List.mem_cons_of_mem y hx))

theorem init_le_foldlMax (l : List ℚ) (a : ℚ) : a ≤ l.foldl max a := by
  induction l generalizing a with
  | nil => exact le_refl a
  | cons x t ih => exact le_trans (le_max_left a x) (ih (max a x))

theorem elem_le_foldlMax {l : List ℚ} {x : ℚ} (hx : x ∈ l) (a : ℚ) : x ≤ l.foldl max a := by
  induction l generalizing a with
  | nil => cases hx
  | cons y t ih =>
    rcases List.mem_cons.mp hx with h | h
    · subst h
      exact le_trans (le_max_right a x) (init_le_foldlMax t (max a x))
    · exact ih h (max a y)

theorem foldlMax_le {l : List ℚ} {a B : ℚ} (ha : a ≤ B) (h : ∀ x ∈ l, x ≤ B) :
    l.foldl max a ≤ B := by
  induction l generalizing a with
  | nil => exact ha
  | cons y t ih =>
    exact ih (max_le ha (h y (List.mem_cons_self y t))) (fun x hx => h x (List.mem_cons_of_mem y hx))

/-- The preference order on candidates: smaller error first, lower time on
equal errors. -/
def candLE {V : Type} (a b : Candidate V) : Prop :=
  a.err2 < b.err2 ∨ (a.err2 = b.err2 ∧ a.time ≤ b.time)

theorem betterCand_iff {V : Type} (a b : Candidate V) : betterCand a b = true ↔ candLE a b := by
  unfold betterCand candLE
  simp only [Bool.or_eq_true, Bool.and_eq_true, decide_eq_true_eq]

theorem candLE_total {V : Type} (a b : Candidate V) : candLE a b ∨ candLE b a := by
  unfold candLE
  rcases lt_trichotomy a.err2 b.err2 with h | h | h
  · exact Or.inl (Or.inl h)
  · rcases le_total a.time b.time with ht | ht
    · exact Or.inl (Or.inr ⟨h, ht⟩)
    · exact Or.inr (Or.inr ⟨h.symm, ht⟩)
  · exact Or.inr (Or.inl h)

theorem candLE_trans {V : Type} {a b c : Candidate V} (h1 : candLE a b) (h2 : candLE b c) :
    candLE a c := by
  unfold candLE at h1 h2 ⊢
  rcases h1 with h1 | ⟨h1e, h1t⟩
  · rcases h2 with h2 | ⟨h2e, _⟩
    · exact Or.inl (lt_trans h1 h2)
    · exact Or.inl (h2e ▸ h1)
  · rcases h2 with h2 | ⟨h2e, h2t⟩
    · exact Or.inl (h1e ▸ h2)
    · exact Or.inr ⟨h1e.trans h2e, h1t.trans h2t⟩

theorem selectBest_mem {V : Type} (cs : List (Candidate V)) (c : Candidate V) :
    selectBest c cs ∈ c :: cs := by
  induction cs generalizing c with
  | nil => exact List.mem_cons_self c []
  | cons y t ih =>
    simp only [selectBest]
    by_cases hb : betterCand c y = true
    · rw [if_pos hb]
      rcases List.mem_cons.mp (ih c) with h | h
      · rw [h]
        exact List.mem_cons_self c (y :: t)
      · exact List.mem_cons_of_mem c (List.mem_cons_of_mem y h)
    · rw [if_neg hb]
      rcases List.mem_cons.mp (ih y) with h | h
      · rw [h]
        exact List.mem_cons_of_mem c (List.mem_cons_self y t)
      · exact List.mem_cons_of_mem c (List.mem_cons_of_mem y h)

theorem selectBest_le {V : Type} (cs : List (Candidate V)) (c : Candidate V) :
    ∀ x ∈ c :: cs, candLE (selectBest c cs) x := by
  induction cs generalizing c with
  | nil =>
    intro x hx
    rcases List.mem_cons.mp hx with h | h
    · subst h
      exact Or.inr ⟨rfl, le_refl _⟩
    · cases h
  | cons y t ih =>
    intro x hx
    simp only [selectBest]
    by_cases hb : betterCand c y = true
    · rw [if_pos hb]
      have hcy : candLE c y := (betterCand_iff c y).mp hb
      rcases List.mem_cons.mp hx with h | h
      · subst h
        exact ih x x (List.mem_cons_self x t)
      · rcases List.mem_cons.mp h with h2 | h2
        · subst h2
          exact candLE_trans (ih c c (List.mem_cons_self c t)) hcy
        · exact ih c x (List.mem_cons_of_mem c h2)
    · rw [if_neg hb]
      have hyc : candLE y c := by
        rcases candLE_total c y with h | h
        · exact absurd ((betterCand_iff c y).mpr h) hb
        · exact h
      rcases List.mem_cons.mp hx with h | h
      · subst h
        exact candLE_trans (ih y y (List.mem_cons_self y t)) hyc
      · rcases List.mem_cons.mp h with h2 | h2
        · subst h2
          exact ih x x (List.mem_cons_self x t)
        · exact ih y x (List.mem_cons_of_mem y h2)

theorem mem_interiorCandidates {V : Type} (M : TrackMetric V) (d : ℚ)
    (orig cur : List (Keyframe V)) {c : Candidate V}
    (hc : c ∈ interiorCandidates M d orig cur) :
    ∃ i, 1 ≤ i ∧ i + 1 < cur.length ∧ c.track = cur.eraseIdx i ∧
      c.err2 = trackSqError M d orig c.track := by
  unfold interiorCandidates at hc
  rcases List.mem_map.mp hc with ⟨i, hi, hceq⟩
  rcases List.mem_range'_1.mp hi with ⟨h1, h2⟩
  refine ⟨i, h1, by omega, ?_, ?_⟩
  · rw [← hceq]
  · rw [← hceq]

theorem interiorCandidate_length {V : Type} (M : TrackMetric V) (d : ℚ)
    (orig cur : List (Keyframe V)) {c : Candidate V}
    (hc : c ∈ interiorCandidates M d orig cur) :
    c.track.length + 1 = cur.length := by
  rcases mem_interiorCandidates M d orig cur hc with ⟨i, _, hilt, htr, _⟩
  rw [htr, List.length_eraseIdx]
  have : i < cur.length := by omega
  rw [if_pos this]
  omega

theorem getLast?_cons_of_ne_nil {α : Type} (a : α) {s : List α} (hs : s ≠ []) :
    (a :: s).getLast? = s.getLast? := by
  cases s with
  | nil => exact absurd rfl hs
  | cons b t => exact List.getLast?_cons_cons

theorem eraseIdx_head? {α : Type} (l : List α) (i : ℕ) (hi : 1 ≤ i) :
    (l.eraseIdx i).head? = l.head? := by
  cases l with
  | nil => simp [List.eraseIdx]
  | cons a t =>
    cases i with
    | zero => omega
    | succ j => simp [List.eraseIdx]

theorem eraseIdx_getLast? {α : Type} (l : List α) (i : ℕ) (hi : i + 1 < l.length) :
    (l.eraseIdx i).getLast? = l.getLast? := by
  induction l generalizing i with
  | nil => simp at hi
  | cons a t ih =>
    cases i with
    | zero =>
      simp only [List.eraseIdx]
      have ht : t ≠ [] := by
        intro h
        rw [h] at hi
        simp at hi
      exact (getLast?_cons_of_ne_nil a ht).symm
    | succ j =>
      simp only [List.eraseIdx]
      have hj : j + 1 < t.length := by
        simp only [List.length_cons] at hi
        omega
      have hne : t.eraseIdx j ≠ [] := by
        intro h
        have := congrArg List.length h
        rw [List.length_eraseIdx] at this
        have hjlt : j < t.length := by omega
        rw [if_pos hjlt] at this
        simp at this
        omega
      have htne : t ≠ [] := by
        intro h
        rw [h] at hj
        simp at hj
      rw [getLast?_cons_of_ne_nil a hne, getLast?_cons_of_ne_nil a htne]
      exact ih j hj

theorem timesSortedB_iff {V : Type} (l : List (Keyframe V)) :
    timesSortedB l = true ↔ l.Pairwise (fun a b => a.time < b.time) := by
  induction l with
  | nil => simp [timesSortedB]
  | cons a t ih =>
    cases t with
    | nil => simp [timesSortedB]
    | cons b r =>
      rw [timesSortedB, Bool.and_eq_true, decide_eq_true_eq, ih]
      constructor
      · rintro ⟨hab, hp⟩
        rcases List.pairwise_cons.mp hp with ⟨hb, hr⟩
        refine List.pairwise_cons.mpr ⟨?_, hp⟩
        intro x hx
        rcases List.mem_cons.mp hx with h | h
        · exact h ▸ hab
        · exact lt_trans hab (hb x h)
      · intro hp
        rcases List.pairwise_cons.mp hp with ⟨hall, htail⟩
        exact ⟨hall b (List.mem_cons_self b r), htail⟩

theorem evalFrom_mem {V : Type} (M : TrackMetric V) (hM : ∀ a b : V, M.lerp a b 1 = b)
    (k0 : Keyframe V) (rest : List (Keyframe V))
    (hs : (k0 :: rest).Pairwise (fun a b => a.time < b.time)) :
    ∀ k ∈ k0 :: rest, evalFrom M k0 rest k.time = k.value := by
  induction rest generalizing k0 with
  | nil =>
    intro k hk
    rcases List.mem_cons.mp hk with h | h
    · subst h
      rfl
    · cases h
  | cons k2 r ih =>
    intro k hk
    rcases List.pairwise_cons.mp hs with ⟨hhead, htail⟩
    rcases List.mem_cons.mp hk with h | h
    · subst h
      rw [evalFrom, if_pos (le_refl k.time)]
    · have hk0k : k0.time < k.time := hhead k h
      rw [evalFrom, if_neg (not_le.mpr hk0k)]
      rcases List.mem_cons.mp h with h2 | h2
      · subst h2
        rw [if_pos (le_refl k.time)]
        have hne : k.time - k0.time ≠ 0 := sub_ne_zero.mpr (ne_of_gt hk0k)
        rw [div_self hne]
        exact hM k0.value k.value
      · have hk2k : k2.time < k.time :=
          (List.pairwise_cons.mp htail).1 k h2
        rw [if_neg (not_le.mpr hk2k)]
        exact ih k2 htail k h

theorem evalTrack_mem {V : Type} (M : TrackMetric V) (hM : ∀ a b : V, M.lerp a b 1 = b)
    (l : List (Keyframe V)) (hs : l.Pairwise (fun a b => a.time < b.time)) :
    ∀ k ∈ l, evalTrack M l k.time = k.value := by
  cases l with
  | nil =>
    intro k hk
    cases hk
  | cons k0 rest =>
    intro k hk
    exact evalFrom_mem M hM k0 rest hs k hk

theorem lerp3_one (a b : Vec3) : lerp3 a b 1 = b := by
  cases a
  cases b
  simp only [lerp3, Vec3.mk.injEq]
  refine ⟨by ring, by ring, by ring⟩

theorem lerp4_one (a b : Quat) : lerp4 a b 1 = b := by
  cases a
  cases b
  simp only [lerp4, Quat.mk.injEq]
  refine ⟨by ring, by ring, by ring, by ring⟩

theorem sqDist3_self (a : Vec3) : sqDist3 a a = 0 := by
  simp [sqDist3]

theorem sqRotErr_self (d : ℚ) (a : Quat) : sqRotErr d a a = 0 := by
  unfold sqRotErr
  by_cases h : qnorm2 a = 0
  · rw [if_pos (Or.inl h)]
  · rw [if_neg (by tauto)]
    have hq : qnorm2 a * qnorm2 a ≠ 0 := mul_ne_zero h h
    rw [qnorm2] at hq ⊢
    rw [pow_two (dot4 a a), div_self hq]
    ring

theorem vec3Metric_lerp_one : ∀ a b : Vec3, vec3Metric.lerp a b 1 = b := by
  intro a b
  exact lerp3_one a b

theorem quatMetric_lerp_one : ∀ a b : Quat, quatMetric.lerp a b 1 = b := by
  intro a b
  exact lerp4_one a b

theorem vec3Metric_sqErr_self : ∀ (d : ℚ) (v : Vec3), vec3Metric.sqErr d v v = 0 := by
  intro d v
  exact sqDist3_self v

theorem quatMetric_sqErr_self : ∀ (d : ℚ) (v : Quat), quatMetric.sqErr d v v = 0 := by
  intro d v
  exact sqRotErr_self d v

theorem trackSqError_elem_le {V : Type} (M : TrackMetric V) (d : ℚ)
    (orig cand : List (Keyframe V)) {k : Keyframe V} (hk : k ∈ orig) :
    M.sqErr d (evalTrack M cand k.time) k.value ≤ trackSqError M d orig cand := by
  unfold trackSqError
  exact elem_le_foldlMax (List.mem_map_of_mem _ hk) 0

theorem trackSqError_self {V : Type} (M : TrackMetric V)
    (hM : ∀ a b : V, M.lerp a b 1 = b) (hM0 : ∀ (d : ℚ) (v : V), M.sqErr d v v = 0)
    (d : ℚ) (l : List (Keyframe V)) (hs : l.Pairwise (fun a b => a.time < b.time)) :
    trackSqError M d l l = 0 := by
  unfold trackSqError
  refine le_antisymm ?_ (init_le_foldlMax _ 0)
  refine foldlMax_le (le_refl 0) ?_
  intro x hx
  rcases List.mem_map.mp hx with ⟨k, hk, hkx⟩
  rw [← hkx, evalTrack_mem M hM l hs k hk, hM0]

theorem decimateLoop_sublist {V : Type} (M : TrackMetric V) (obs : Option (ObsData → Bool))
    (ctx : DecimCtx) (orig : List (Keyframe V)) :
    ∀ fuel iter cur, ((decimateLoop M obs ctx orig fuel iter cur).1).Sublist cur := by
  intro fuel
  induction fuel with
  | zero =>
    intro iter cur
    simp only [decimateLoop]
    exact List.Sublist.refl cur
  | succ fuel ih =>
    intro iter cur
    simp only [decimateLoop]
    split
    · exact List.Sublist.refl cur
    · next c cs heq =>
      have hbestmem : selectBest c cs ∈ interiorCandidates M ctx.d orig cur := by
        rw [heq]
        exact selectBest_mem cs c
      rcases mem_interiorCandidates M ctx.d orig cur hbestmem with ⟨i, _, _, htr, _⟩
      have hsub : ((selectBest c cs).track).Sublist cur := by
        rw [htr]
        exact List.eraseIdx_sublist cur i
      split
      · split
        · exact List.Sublist.trans (ih _ _) hsub
        · exact List.Sublist.refl cur
      · exact List.Sublist.refl cur

theorem decimateLoop_head? {V : Type} (M : TrackMetric V) (obs : Option (ObsData → Bool))
    (ctx : DecimCtx) (orig : List (Keyframe V)) :
    ∀ fuel iter cur, ((decimateLoop M obs ctx orig fuel iter cur).1).head? = cur.head? := by
  intro fuel
  induction fuel with
  | zero =>
    intro iter cur
    simp only [decimateLoop]
  | succ fuel ih =>
    intro iter cur
    simp only [decimateLoop]
    split
    · rfl
    · next c cs heq =>
      have hbestmem : selectBest c cs ∈ interiorCandidates M ctx.d orig cur := by
        rw [heq]
        exact selectBest_mem cs c
      rcases mem_interiorCandidates M ctx.d orig cur hbestmem with ⟨i, hi1, _, htr, _⟩
      have hhead : ((selectBest c cs).track).head? = cur.head? := by
        rw [htr]
        exact eraseIdx_head? cur i hi1
      split
      · split
        · rw [ih _ _]
          exact hhead
        · rfl
      · rfl

theorem decimateLoop_getLast? {V : Type} (M : TrackMetric V) (obs : Option (ObsData → Bool))
    (ctx : DecimCtx) (orig : List (Keyframe V)) :
    ∀ fuel iter cur, ((decimateLoop M obs ctx orig fuel iter cur).1).getLast? = cur.getLast? := by
  intro fuel
  induction fuel with
  | zero =>
    intro iter cur
    simp only [decimateLoop]
  | succ fuel ih =>
    intro iter cur
    simp only [decimateLoop]
    split
    · rfl
    · next c cs heq =>
      have hbestmem : selectBest c cs ∈ interiorCandidates M ctx.d orig cur := by
        rw [heq]
        exact selectBest_mem cs c
      rcases mem_interiorCandidates M ctx.d orig cur hbestmem with ⟨i, _, hi2, htr, _⟩
      have hlast : ((selectBest c cs).track).getLast? = cur.getLast? := by
        rw [htr]
        exact eraseIdx_getLast? cur i hi2
      split
      · split
        · rw [ih _ _]
          exact hlast
        · rfl
      · rfl

theorem accepts_iff (budget err2 : ℚ) :
    accepts budget err2 = true ↔ 0 ≤ budget ∧ err2 ≤ budget ^ 2 := by
  unfold accepts
  simp only [Bool.and_eq_true, decide_eq_true_eq]

theorem decimateLoop_err_le {V : Type} (M : TrackMetric V) (obs : Option (ObsData → Bool))
    (ctx : DecimCtx) (orig : List (Keyframe V)) :
    ∀ fuel iter cur, trackSqError M ctx.d orig cur ≤ ctx.budget ^ 2 →
      trackSqError M ctx.d orig ((decimateLoop M obs ctx orig fuel iter cur).1) ≤
        ctx.budget ^ 2 := by
  intro fuel
  induction fuel with
  | zero =>
    intro iter cur h
    simpa only [decimateLoop] using h
  | succ fuel ih =>
    intro iter cur h
    simp only [decimateLoop]
    split
    · exact h
    · next c cs heq =>
      have hbestmem : selectBest c cs ∈ interiorCandidates M ctx.d orig cur := by
        rw [heq]
        exact selectBest_mem cs c
      rcases mem_interiorCandidates M ctx.d orig cur hbestmem with ⟨i, _, _, _, herr⟩
      split
      · split
        · next hacc =>
          have hb := (accepts_iff ctx.budget (selectBest c cs).err2).mp hacc
          exact ih _ _ (herr ▸ hb.2)
        · exact h
      · exact h

theorem validTrackB_iff {V : Type} (dur : ℚ) (l : List (Keyframe V)) :
    validTrackB dur l = true ↔
      l ≠ [] ∧ l.Pairwise (fun a b => a.time < b.time) ∧
        ∀ k ∈ l, 0 ≤ k.time ∧ k.time ≤ dur := by
  unfold validTrackB
  rw [Bool.and_eq_true, Bool.and_eq_true]
  rw [Bool.not_eq_true', List.isEmpty_eq_false_iff_exists_mem]
  rw [timesSortedB_iff, List.all_eq_true]
  constructor
  · rintro ⟨⟨hne, hs⟩, hall⟩
    refine ⟨?_, hs, ?_⟩
    · rcases hne with ⟨x, hx⟩
      intro h
      rw [h] at hx
      cases hx
    · intro k hk
      have := hall k hk
      rw [Bool.and_eq_true, decide_eq_true_eq, decide_eq_true_eq] at this
      exact this
  · rintro ⟨hne, hs, hall⟩
    refine ⟨⟨?_, hs⟩, ?_⟩
    · cases l with
      | nil => exact absurd rfl hne
      | cons a t => exact ⟨a, List.mem_cons_self a t⟩
    · intro k hk
      rw [Bool.and_eq_true, decide_eq_true_eq, decide_eq_true_eq]
      exact hall k hk

theorem sublist_validTrackB {V : Type} (dur : ℚ) {l l' : List (Keyframe V)}
    (hsub : l'.Sublist l) (hh : l'.head? = l.head?) (h : validTrackB dur l = true) :
    validTrackB dur l' = true := by
  rcases (validTrackB_iff dur l).mp h with ⟨hne, hs, hall⟩
  refine (validTrackB_iff dur l').mpr ⟨?_, hs.sublist hsub, ?_⟩
  · intro h'
    rw [h'] at hh
    cases l with
    | nil => exact absurd rfl hne
    | cons a t => simp at hh
  · intro k hk
    exact hall k (hsub.mem hk)

theorem decimateTrack_fst_valid {V : Type} (M : TrackMetric V)
    (obs : Option (ObsData → Bool)) (ctx : DecimCtx) (dur : ℚ)
    (orig : List (Keyframe V)) (h : validTrackB dur orig = true) :
    validTrackB dur (decimateTrack M obs ctx orig).1 = true := by
  exact sublist_validTrackB dur
    (decimateLoop_sublist M obs ctx orig orig.length 0 orig)
    (decimateLoop_head? M obs ctx orig orig.length 0 orig) h

theorem RawAnimation.Validate_iff (a : RawAnimation) :
    a.Validate = true ↔
      0 < a.duration ∧ ∀ jt ∈ a.tracks,
        validTrackB a.duration jt.translations = true ∧
          validTrackB a.duration jt.rotations = true ∧
            validTrackB a.duration jt.scales = true := by
  unfold RawAnimation.Validate
  rw [Bool.and_eq_true, decide_eq_true_eq, List.all_eq_true]
  constructor
  · rintro ⟨hd, hall⟩
    refine ⟨hd, ?_⟩
    intro jt hjt
    have := hall jt hjt
    rw [Bool.and_eq_true, Bool.and_eq_true] at this
    exact ⟨this.1.1, this.1.2, this.2⟩
  · rintro ⟨hd, hall⟩
    refine ⟨hd, ?_⟩
    intro jt hjt
    rw [Bool.and_eq_true, Bool.and_eq_true]
    rcases hall jt hjt with ⟨h1, h2, h3⟩
    exact ⟨⟨h1, h2⟩, h3⟩

theorem getD_mem_of_lt {α : Type} (l : List α) (j : ℕ) (d : α) (hj : j < l.length) :
    l.getD j d ∈ l := by
  rw [List.getD_eq_getElem?_getD, List.getElem?_eq_getElem hj]
  exact List.getElem_mem hj

theorem buildOptimized_valid (opt : AnimationOptimizer) (input : RawAnimation)
    (skel : Skeleton) (hv : input.Validate = true)
    (hc : input.tracks.length = skel.num_joints) :
    validWith skel (buildOptimized opt input skel) = true := by
  rcases (RawAnimation.Validate_iff input).mp hv with ⟨hd, hall⟩
  unfold validWith
  rw [Bool.and_eq_true]
  constructor
  · rw [RawAnimation.Validate_iff]
    refine ⟨hd, ?_⟩
    intro jt hjt
    rcases List.mem_map.mp hjt with ⟨j, hj, hjt2⟩
    have hjlt : j < input.tracks.length := List.mem_range.mp hj
    have hmem := getD_mem_of_lt input.tracks j emptyJointTracks hjlt
    rcases hall _ hmem with ⟨h1, h2, h3⟩
    rw [← hjt2]
    unfold optimizeJointTracks
    refine ⟨decimateTrack_fst_valid _ _ _ _ _ h1, decimateTrack_fst_valid _ _ _ _ _ h2,
      decimateTrack_fst_valid _ _ _ _ _ h3⟩
  · simp only [buildOptimized, List.length_map, List.length_range]
    exact beq_iff_eq.mpr hc

theorem AnimationOptimizer.run_true (opt : AnimationOptimizer) (input : RawAnimation)
    (skel : Skeleton) (prior : RawAnimation) (hv : input.Validate = true)
    (hc : input.tracks.length = skel.num_joints) :
    opt.run input skel (some prior) = (true, some (buildOptimized opt input skel)) := by
  unfold AnimationOptimizer.run
  rw [if_pos (buildOptimized_valid opt input skel hv hc)]

/-- The track set of a joint, empty when the joint index is out of range. -/
def trackSetAt (a : RawAnimation) (j : ℕ) : JointTracks :=
  a.tracks.getD j emptyJointTracks

theorem trackSetAt_build (opt : AnimationOptimizer) (input : RawAnimation)
    (skel : Skeleton) (j : ℕ) (hj : j < input.tracks.length) :
    trackSetAt (buildOptimized opt input skel) j =
      optimizeJointTracks opt skel j (trackSetAt input j) := by
  unfold trackSetAt buildOptimized
  rw [List.getD_eq_getElem?_getD, List.getElem?_map, List.getElem?_range hj,
    Option.map_some', Option.getD_some]

theorem trackSetAt_build_ge (opt : AnimationOptimizer) (input : RawAnimation)
    (skel : Skeleton) (j : ℕ) (hj : input.tracks.length ≤ j) :
    trackSetAt (buildOptimized opt input skel) j = emptyJointTracks := by
  unfold trackSetAt buildOptimized
  rw [List.getD_eq_getElem?_getD, List.getElem?_eq_none, Option.getD_none]
  simp only [List.length_map, List.length_range]
  exact hj

theorem trackSetAt_ge (a : RawAnimation) (j : ℕ) (hj : a.tracks.length ≤ j) :
    trackSetAt a j = emptyJointTracks := by
  unfold trackSetAt
  rw [List.getD_eq_getElem?_getD, List.getElem?_eq_none hj, Option.getD_none]

/-- Fixture: an optimizer with the default settings, no overrides and no
observer. -/
def optFix : AnimationOptimizer := ⟨defaultSetting, [], none⟩

/-- Fixture: a three-joint chain root - mid - tip. -/
def skelFix : Skeleton := ⟨[none, some 0, some 1]⟩

/-- Fixture: a joint-track set with a collinear three-key translation track
and one-key rotation and scale tracks. -/
def tracksFix : JointTracks :=
  { translations := [⟨0, ⟨0, 0, 0⟩⟩, ⟨1 / 2, ⟨1 / 2, 0, 0⟩⟩, ⟨1, ⟨1, 0, 0⟩⟩]
    rotations := [⟨0, ⟨0, 0, 0, 1⟩⟩]
    scales := [⟨0, ⟨1, 1, 1⟩⟩] }

/-- Fixture: a valid three-joint animation over the chain skeleton. -/
def animFix : RawAnimation := ⟨1, [tracksFix, tracksFix, tracksFix]⟩

/-- Fixture: a structurally invalid animation (duration zero). -/
def animBad : RawAnimation := ⟨0, []⟩

/-- Fixture: a trivial candidate record. -/
def candFix : Candidate Vec3 := ⟨0, 0, []⟩

/-- Fixture: a constant optimizer with small positive tolerances. -/
def coptFix : AnimationConstantOptimizer := ⟨1 / 1000, 999 / 1000, 1 / 1000⟩

/-- C9: both operator() calls are const member functions taking the input
animation (and the skeleton) by const reference: the call frame returns the
optimizer's configuration state, the input animation and the skeleton exactly
as they were before the call, and only the boolean result and the output
pointee are produced by the call. -/
theorem claim_C9_const_frame :
    (∀ (opt : AnimationOptimizer) (input : RawAnimation) (skel : Skeleton)
        (out : Option RawAnimation),
      (opt.call input skel out).1 = opt ∧ (opt.call input skel out).2.1 = input ∧
        (opt.call input skel out).2.2.1 = skel ∧
        (opt.call input skel out).1.setting = opt.setting ∧
        (opt.call input skel out).1.joints_setting_override = opt.joints_setting_override ∧
        (opt.call input skel out).1.observer = opt.observer ∧
        (opt.call input skel out).2.2.2 = opt.run input skel out) ∧
    (∀ (copt : AnimationConstantOptimizer) (input : RawAnimation)
        (out : Option RawAnimation),
      (copt.call input out).1 = copt ∧ (copt.call input out).2.1 = input ∧
        (copt.call input out).1.translation_tolerance = copt.translation_tolerance ∧
        (copt.call input out).1.rotation_tolerance = copt.rotation_tolerance ∧
        (copt.call input out).1.scale_tolerance = copt.scale_tolerance ∧
        (copt.call input out).2.2 = copt.run input out) :=
  ⟨fun _ _ _ _ => ⟨rfl, rfl, rfl, rfl, rfl, rfl, rfl⟩,
   fun _ _ _ => ⟨rfl, rfl, rfl, rfl, rfl, rfl⟩⟩

/-- C5: both operators report failure only through a false boolean: a null
output pointer fails immediately with nothing written, and when the assembled
result fails structural validation the call returns false with the output
reset to the empty animation, which itself is valid. -/
theorem claim_C5_failure_handling :
    (∀ (opt : AnimationOptimizer) (input : RawAnimation) (skel : Skeleton),
      opt.run input skel none = (false, none)) ∧
    (∀ (copt : AnimationConstantOptimizer) (input : RawAnimation),
      copt.run input none = (false, none)) ∧
    (∀ (opt : AnimationOptimizer) (input : RawAnimation) (skel : Skeleton)
        (prior : RawAnimation), validWith skel (buildOptimized opt input skel) = false →
      opt.run input skel (some prior) = (false, some emptyAnimation)) ∧
    (∀ (copt : AnimationConstantOptimizer) (input : RawAnimation) (prior : RawAnimation),
      (buildConstant copt input).Validate = false →
        copt.run input (some prior) = (false, some emptyAnimation)) ∧
    emptyAnimation.Validate = true := by
  refine ⟨fun _ _ _ => rfl, fun _ _ => rfl, ?_, ?_, by with_unfolding_all decide⟩
  · intro opt input skel prior h
    unfold AnimationOptimizer.run
    rw [if_neg]
    rw [h]
    simp
  · intro copt input prior h
    unfold AnimationConstantOptimizer.run
    rw [if_neg]
    rw [h]
    simp

/-- Witness for C5: on the duration-zero animation both assembled results fail
validation and both operators return false with the output reset to the empty
animation; a null output fails with nothing written. -/
theorem claim_C5_witness :
    validWith skelFix (buildOptimized optFix animBad skelFix) = false ∧
    (buildConstant coptFix animBad).Validate = false ∧
    optFix.run animBad skelFix none = (false, none) ∧
    optFix.run animBad skelFix (some emptyAnimation) = (false, some emptyAnimation) ∧
    coptFix.run animBad (some emptyAnimation) = (false, some emptyAnimation) :=
  ⟨by with_unfolding_all decide, by with_unfolding_all decide, claim_C5_failure_handling.1 optFix animBad skelFix,
   claim_C5_failure_handling.2.2.1 optFix animBad skelFix emptyAnimation (by with_unfolding_all decide),
   claim_C5_failure_handling.2.2.2.1 coptFix animBad emptyAnimation (by with_unfolding_all decide)⟩

theorem run_fst_true_elim (opt : AnimationOptimizer) (input : RawAnimation)
    (skel : Skeleton) (out : Option RawAnimation)
    (hrun : (opt.run input skel out).1 = true) :
    (opt.run input skel out).2 = some (buildOptimized opt input skel) ∧
      validWith skel (buildOptimized opt input skel) = true := by
  cases out with
  | none => cases hrun
  | some prior =>
    unfold AnimationOptimizer.run at hrun ⊢
    by_cases h : validWith skel (buildOptimized opt input skel) = true
    · rw [if_pos h]
      exact ⟨rfl, h⟩
    · rw [if_neg h] at hrun
      cases hrun

/-- C2: whenever AnimationOptimizer::operator() returns true, the first and
the last keyframe of every (joint, track-kind) input track appear unchanged
(same time and value) as the first and last keyframe of the corresponding
output track. -/
theorem claim_C2_endpoints (opt : AnimationOptimizer) (input : RawAnimation)
    (skel : Skeleton) (out : Option RawAnimation) (j : ℕ)
    (hrun : (opt.run input skel out).1 = true) :
    (trackSetAt ((opt.run input skel out).2.getD emptyAnimation) j).translations.head? =
        (trackSetAt input j).translations.head? ∧
      (trackSetAt ((opt.run input skel out).2.getD emptyAnimation) j).translations.getLast? =
        (trackSetAt input j).translations.getLast? ∧
      (trackSetAt ((opt.run input skel out).2.getD emptyAnimation) j).rotations.head? =
        (trackSetAt input j).rotations.head? ∧
      (trackSetAt ((opt.run input skel out).2.getD emptyAnimation) j).rotations.getLast? =
        (trackSetAt input j).rotations.getLast? ∧
      (trackSetAt ((opt.run input skel out).2.getD emptyAnimation) j).scales.head? =
        (trackSetAt input j).scales.head? ∧
      (trackSetAt ((opt.run input skel out).2.getD emptyAnimation) j).scales.getLast? =
        (trackSetAt input j).scales.getLast? := by
  rcases run_fst_true_elim opt input skel out hrun with ⟨hout, _⟩
  rw [hout, Option.getD_some]
  by_cases hj : j < input.tracks.length
  · rw [trackSetAt_build opt input skel j hj]
    unfold optimizeJointTracks decimateTrack
    refine ⟨decimateLoop_head? _ _ _ _ _ _ _, decimateLoop_getLast? _ _ _ _ _ _ _,
      decimateLoop_head? _ _ _ _ _ _ _, decimateLoop_getLast? _ _ _ _ _ _ _,
      decimateLoop_head? _ _ _ _ _ _ _, decimateLoop_getLast? _ _ _ _ _ _ _⟩
  · rw [trackSetAt_build_ge opt input skel j (le_of_not_lt hj),
      trackSetAt_ge input j (le_of_not_lt hj)]
    exact ⟨rfl, rfl, rfl, rfl, rfl, rfl⟩

/-- Witness for C2: on the collinear fixture animation the run succeeds and
the endpoint keyframes of joint 1's tracks are preserved. -/
theorem claim_C2_witness :
    (optFix.run animFix skelFix (some emptyAnimation)).1 = true ∧
      (trackSetAt ((optFix.run animFix skelFix (some emptyAnimation)).2.getD emptyAnimation)
            1).translations.head? = (trackSetAt animFix 1).translations.head? ∧
      (trackSetAt ((optFix.run animFix skelFix (some emptyAnimation)).2.getD emptyAnimation)
            1).translations.getLast? = (trackSetAt animFix 1).translations.getLast? :=
  ⟨by with_unfolding_all decide,
   (claim_C2_endpoints optFix animFix skelFix (some emptyAnimation) 1 (by with_unfolding_all decide)).1,
   (claim_C2_endpoints optFix animFix skelFix (some emptyAnimation) 1 (by with_unfolding_all decide)).2.1⟩

/-- C6: AnimationOptimizer::operator() is deterministic: equal optimizer
state, input, skeleton and output target give equal results, and the greedy
candidate selection breaks ties among equal worst-case errors by the lowest
removal time: the selected candidate's error is minimal, and any candidate
with the same error has a time no smaller than the selected one's. -/
theorem claim_C6_determinism :
    (∀ (o1 o2 : AnimationOptimizer) (i1 i2 : RawAnimation) (s1 s2 : Skeleton)
        (out1 out2 : Option RawAnimation), o1 = o2 → i1 = i2 → s1 = s2 → out1 = out2 →
      o1.run i1 s1 out1 = o2.run i2 s2 out2) ∧
    (∀ (V : Type) (c : Candidate V) (cs : List (Candidate V)),
      selectBest c cs ∈ c :: cs ∧
        ∀ x ∈ c :: cs, (selectBest c cs).err2 ≤ x.err2 ∧
          ((selectBest c cs).err2 = x.err2 → (selectBest c cs).time ≤ x.time)) := by
  constructor
  · intro o1 o2 i1 i2 s1 s2 out1 out2 h1 h2 h3 h4
    rw [h1, h2, h3, h4]
  · intro V c cs
    refine ⟨selectBest_mem cs c, ?_⟩
    intro x hx
    have h := selectBest_le cs c x hx
    rcases h with h | ⟨he, ht⟩
    · refine ⟨le_of_lt h, ?_⟩
      intro heq
      rw [heq] at h
      exact absurd h (lt_irrefl x.err2)
    · exact ⟨le_of_eq he, fun _ => ht⟩

/-- Witness for C6: the determinism conjunct applied to the fixture run, and
the tie-break conjunct applied to a singleton candidate list. -/
theorem claim_C6_witness :
    optFix.run animFix skelFix (some emptyAnimation) =
        optFix.run animFix skelFix (some emptyAnimation) ∧
      (selectBest candFix []).err2 ≤ candFix.err2 ∧
      ((selectBest candFix []).err2 = candFix.err2 →
        (selectBest candFix []).time ≤ candFix.time) :=
  ⟨claim_C6_determinism.1 optFix optFix animFix animFix skelFix skelFix
      (some emptyAnimation) (some emptyAnimation) rfl rfl rfl rfl,
   ((claim_C6_determinism.2 Vec3 candFix []).2 candFix
       (List.mem_cons_self candFix [])).1,
   ((claim_C6_determinism.2 Vec3 candFix []).2 candFix
       (List.mem_cons_self candFix [])).2⟩

theorem decimateLoop_none_fst {V : Type} (M : TrackMetric V) (ctx : DecimCtx)
    (orig : List (Keyframe V)) :
    ∀ fuel iter cur, (decimateLoop M none ctx orig fuel iter cur).1 =
      (decimateLoop M (some (fun _ => true)) ctx orig fuel iter cur).1 := by
  intro fuel
  induction fuel with
  | zero =>
    intro iter cur
    rfl
  | succ fuel ih =>
    intro iter cur
    simp only [decimateLoop]
    cases hcand : interiorCandidates M ctx.d orig cur with
    | nil => rfl
    | cons c cs =>
      dsimp only
      by_cases hacc : accepts ctx.budget (selectBest c cs).err2 = true
      · rw [if_pos hacc, if_pos hacc]
        exact ih (iter + 1) (selectBest c cs).track
      · rw [if_neg hacc, if_neg hacc]
        simp

theorem decimateLoop_none_snd {V : Type} (M : TrackMetric V) (ctx : DecimCtx)
    (orig : List (Keyframe V)) :
    ∀ fuel iter cur, (decimateLoop M none ctx orig fuel iter cur).2 = [] := by
  intro fuel
  induction fuel with
  | zero =>
    intro iter cur
    rfl
  | succ fuel ih =>
    intro iter cur
    simp only [decimateLoop]
    cases hcand : interiorCandidates M ctx.d orig cur with
    | nil => rfl
    | cons c cs =>
      dsimp only
      by_cases hacc : accepts ctx.budget (selectBest c cs).err2 = true
      · rw [if_pos hacc]
        simpa using ih (iter + 1) (selectBest c cs).track
      · rw [if_neg hacc]
        simp

theorem optimizeJointTracks_obs (opt : AnimationOptimizer) (skel : Skeleton) (j : ℕ)
    (jt : JointTracks) :
    optimizeJointTracks { opt with observer := none } skel j jt =
      optimizeJointTracks { opt with observer := some (fun _ => true) } skel j jt := by
  unfold optimizeJointTracks decimateTrack
  rw [JointTracks.mk.injEq]
  refine ⟨decimateLoop_none_fst _ _ _ _ _ _, decimateLoop_none_fst _ _ _ _ _ _,
    decimateLoop_none_fst _ _ _ _ _ _⟩

theorem buildOptimized_obs (opt : AnimationOptimizer) (input : RawAnimation)
    (skel : Skeleton) :
    buildOptimized { opt with observer := none } input skel =
      buildOptimized { opt with observer := some (fun _ => true) } input skel := by
  unfold buildOptimized
  rw [RawAnimation.mk.injEq]
  refine ⟨rfl, ?_⟩
  apply List.map_congr_left
  intro j _
  exact optimizeJointTracks_obs opt skel j _

/-- C10: the observer influences the result only through the booleans Push
returns: a null observer performs no Push at all (the pushed-record list of
every track decimation is empty), and the run with a null observer produces
exactly the run of an observer whose Push always returns true. -/
theorem claim_C10_observer_noninterference :
    (∀ (V : Type) (M : TrackMetric V) (ctx : DecimCtx) (orig : List (Keyframe V))
        (fuel iter : ℕ) (cur : List (Keyframe V)),
      (decimateLoop M none ctx orig fuel iter cur).2 = []) ∧
    (∀ (opt : AnimationOptimizer) (input : RawAnimation) (skel : Skeleton)
        (out : Option RawAnimation),
      AnimationOptimizer.run { opt with observer := none } input skel out =
        AnimationOptimizer.run { opt with observer := some (fun _ => true) } input skel out) := by
  constructor
  · intro V M ctx orig fuel iter cur
    exact decimateLoop_none_snd M ctx orig fuel iter cur
  · intro opt input skel out
    cases out with
    | none => rfl
    | some prior =>
      unfold AnimationOptimizer.run
      rw [buildOptimized_obs opt input skel]

/-- Valid settings: the global tolerance and every override tolerance are
non-negative. -/
def nonnegTolB (opt : AnimationOptimizer) : Bool :=
  decide (0 ≤ opt.setting.tolerance) &&
    opt.joints_setting_override.all (fun e => decide (0 ≤ e.2.tolerance))

theorem ownTolFn_nonneg (opt : AnimationOptimizer) (h : nonnegTolB opt = true) (j : ℕ) :
    0 ≤ ownTolFn opt j := by
  unfold nonnegTolB at h
  rw [Bool.and_eq_true, decide_eq_true_eq, List.all_eq_true] at h
  unfold ownTolFn ownSettingOf lookupOverride
  cases hf : opt.joints_setting_override.find? (fun e => e.1 == j) with
  | none => simpa using h.1
  | some e =>
    have hmem := List.mem_of_find?_eq_some hf
    have he := h.2 e hmem
    rw [decide_eq_true_eq] at he
    simpa using he

theorem resolveAux_nonneg (own : ℕ → ℚ) (parents : List (Option ℕ))
    (hown : ∀ k, 0 ≤ own k) : ∀ fuel j, 0 ≤ resolveAux own parents fuel j := by
  intro fuel
  induction fuel with
  | zero => exact hown
  | succ fuel ih =>
    intro j
    refine le_foldlMin _ _ (hown j) ?_
    intro c _
    exact ih c

theorem budgetOf_nonneg (opt : AnimationOptimizer) (skel : Skeleton)
    (h : nonnegTolB opt = true) (j : ℕ) : 0 ≤ budgetOf opt skel j := by
  unfold budgetOf hierarchyWeightOf
  by_cases h0 : ownTolFn opt j = 0
  · rw [if_pos h0, h0]
    simp
  · rw [if_neg h0]
    have hown := ownTolFn_nonneg opt h j
    have hres : 0 ≤ resolvedToleranceOf opt skel j :=
      resolveAux_nonneg _ _ (ownTolFn_nonneg opt h) _ _
    exact mul_nonneg hown (div_nonneg hres hown)

theorem decimateTrack_err_bound {V : Type} (M : TrackMetric V)
    (hM : ∀ a b : V, M.lerp a b 1 = b) (hM0 : ∀ (d : ℚ) (v : V), M.sqErr d v v = 0)
    (obs : Option (ObsData → Bool)) (ctx : DecimCtx) (orig : List (Keyframe V))
    (hs : orig.Pairwise (fun a b => a.time < b.time)) :
    ∀ k ∈ orig,
      M.sqErr ctx.d (evalTrack M (decimateTrack M obs ctx orig).1 k.time) k.value ≤
        ctx.budget ^ 2 := by
  intro k hk
  have h0 : trackSqError M ctx.d orig orig ≤ ctx.budget ^ 2 := by
    rw [trackSqError_self M hM hM0 ctx.d orig hs]
    exact sq_nonneg ctx.budget
  have hre := decimateLoop_err_le M obs ctx orig orig.length 0 orig h0
  exact le_trans (trackSqError_elem_le M ctx.d orig _ hk) hre

/-- C1: whenever AnimationOptimizer::operator() succeeds on a valid input
animation with valid (non-negative-tolerance) settings, re-evaluating every
output track at every original sample time deviates from the original value
by at most the joint's resolved error budget (its own tolerance weighted by
the hierarchy error ratio), for every joint, reduced or not. Deviations are
compared in squared form: translations and scales by squared euclidean
distance, rotations by the squared angular deviation converted to a
displacement at the joint's resolved distance; together with the budget's
non-negativity this is exactly "deviation at most budget". -/
theorem claim_C1_error_bound (opt : AnimationOptimizer) (input : RawAnimation)
    (skel : Skeleton) (out : Option RawAnimation) (hval : input.Validate = true)
    (htol : nonnegTolB opt = true) (hrun : (opt.run input skel out).1 = true) (j : ℕ) :
    0 ≤ budgetOf opt skel j ∧
      (∀ k ∈ (trackSetAt input j).translations,
        sqDist3 (evalTrack vec3Metric
            (trackSetAt ((opt.run input skel out).2.getD emptyAnimation) j).translations
            k.time) k.value ≤ budgetOf opt skel j ^ 2) ∧
      (∀ k ∈ (trackSetAt input j).rotations,
        sqRotErr (distOf opt j) (evalTrack quatMetric
            (trackSetAt ((opt.run input skel out).2.getD emptyAnimation) j).rotations
            k.time) k.value ≤ budgetOf opt skel j ^ 2) ∧
      (∀ k ∈ (trackSetAt input j).scales,
        sqDist3 (evalTrack vec3Metric
            (trackSetAt ((opt.run input skel out).2.getD emptyAnimation) j).scales
            k.time) k.value ≤ budgetOf opt skel j ^ 2) := by
  rcases run_fst_true_elim opt input skel out hrun with ⟨hout, _⟩
  rw [hout, Option.getD_some]
  refine ⟨budgetOf_nonneg opt skel htol j, ?_⟩
  by_cases hj : j < input.tracks.length
  · rw [trackSetAt_build opt input skel j hj]
    have hjt := getD_mem_of_lt input.tracks j emptyJointTracks hj
    rcases (RawAnimation.Validate_iff input).mp hval with ⟨_, hall⟩
    rcases hall _ hjt with ⟨h1, h2, h3⟩
    rcases (validTrackB_iff _ _).mp h1 with ⟨_, hs1, _⟩
    rcases (validTrackB_iff _ _).mp h2 with ⟨_, hs2, _⟩
    rcases (validTrackB_iff _ _).mp h3 with ⟨_, hs3, _⟩
    refine ⟨?_, ?_, ?_⟩
    · intro k hk
      exact decimateTrack_err_bound vec3Metric vec3Metric_lerp_one vec3Metric_sqErr_self
        opt.observer (trackCtx opt skel j 0 (trackSetAt input j).translations.length)
        (trackSetAt input j).translations hs1 k hk
    · intro k hk
      exact decimateTrack_err_bound quatMetric quatMetric_lerp_one quatMetric_sqErr_self
        opt.observer (trackCtx opt skel j 1 (trackSetAt input j).rotations.length)
        (trackSetAt input j).rotations hs2 k hk
    · intro k hk
      exact decimateTrack_err_bound vec3Metric vec3Metric_lerp_one vec3Metric_sqErr_self
        opt.observer (trackCtx opt skel j 2 (trackSetAt input j).scales.length)
        (trackSetAt input j).scales hs3 k hk
  · rw [trackSetAt_ge input j (le_of_not_lt hj)]
    refine ⟨?_, ?_, ?_⟩ <;>
      { intro k hk
        exact absurd hk (List.not_mem_nil k) }

/-- Witness for C1: the fixture animation is valid, the fixture settings are
valid, the run succeeds, and the theorem applies; its first conjunct gives the
non-negative budget of joint 1. -/
theorem claim_C1_witness :
    animFix.Validate = true ∧ nonnegTolB optFix = true ∧
      (optFix.run animFix skelFix (some emptyAnimation)).1 = true ∧
      0 ≤ budgetOf optFix skelFix 1 :=
  ⟨by with_unfolding_all decide, by with_unfolding_all decide, by with_unfolding_all decide,
   (claim_C1_error_bound optFix animFix skelFix (some emptyAnimation)
      (by with_unfolding_all decide) (by with_unfolding_all decide)
      (by with_unfolding_all decide) 1).1⟩

theorem accepts_mono {V : Type} (budget : ℚ) (best x : Candidate V) (hle : candLE best x)
    (hx : accepts budget x.err2 = true) : accepts budget best.err2 = true := by
  rw [accepts_iff] at hx ⊢
  refine ⟨hx.1, le_trans ?_ hx.2⟩
  rcases hle with h | ⟨h, _⟩
  · exact le_of_lt h
  · exact le_of_eq h

theorem decimateLoop_len_eq {V : Type} (M : TrackMetric V) (obs : Option (ObsData → Bool))
    (ctx : DecimCtx) (orig : List (Keyframe V)) (fuel iter : ℕ) (cur : List (Keyframe V))
    (hlen : ((decimateLoop M obs ctx orig (fuel + 1) iter cur).1).length = cur.length) :
    (∀ c ∈ interiorCandidates M ctx.d orig cur, accepts ctx.budget c.err2 = false) ∨
      (∃ f, obs = some f ∧
        ∃ dta ∈ (decimateLoop M obs ctx orig (fuel + 1) iter cur).2, f dta = false) := by
  rw [decimateLoop] at hlen ⊢
  revert hlen
  cases hcand : interiorCandidates M ctx.d orig cur with
  | nil =>
    intro hlen
    left
    intro c hc
    cases hc
  | cons c cs =>
    intro hlen
    have hbestmem : selectBest c cs ∈ interiorCandidates M ctx.d orig cur := by
      rw [hcand]
      exact selectBest_mem cs c
    have hblen := interiorCandidate_length M ctx.d orig cur hbestmem
    have hrlen := (decimateLoop_sublist M obs ctx orig fuel (iter + 1)
      (selectBest c cs).track).length_le
    cases obs with
    | none =>
      try dsimp only at hlen
      try dsimp only
      rw [if_pos rfl] at hlen
      by_cases hacc : accepts ctx.budget (selectBest c cs).err2 = true
      · rw [if_pos hacc] at hlen
        try dsimp only at hlen
        omega
      · left
        intro x hx
        by_contra hxt
        rw [Bool.not_eq_false] at hxt
        exact hacc (accepts_mono ctx.budget (selectBest c cs) x (selectBest_le cs c x hx) hxt)
    | some f =>
      try dsimp only at hlen
      try dsimp only
      by_cases hk : f (mkObsData ctx iter cur.length (selectBest c cs).err2) = true
      · rw [if_pos hk] at hlen ⊢
        by_cases hacc : accepts ctx.budget (selectBest c cs).err2 = true
        · rw [if_pos hacc] at hlen
          try dsimp only at hlen
          omega
        · left
          intro x hx
          by_contra hxt
          rw [Bool.not_eq_false] at hxt
          exact hacc (accepts_mono ctx.budget (selectBest c cs) x (selectBest_le cs c x hx) hxt)
      · rw [if_neg hk] at hlen ⊢
        right
        rw [Bool.not_eq_true] at hk
        exact ⟨f, rfl, mkObsData ctx iter cur.length (selectBest c cs).err2,
          List.mem_cons_self _ [], hk⟩

theorem decimateTrack_len_eq {V : Type} (M : TrackMetric V) (obs : Option (ObsData → Bool))
    (ctx : DecimCtx) (orig : List (Keyframe V))
    (hlen : ((decimateTrack M obs ctx orig).1).length = orig.length) :
    (∀ c ∈ interiorCandidates M ctx.d orig orig, accepts ctx.budget c.err2 = false) ∨
      (∃ f, obs = some f ∧ ∃ dta ∈ (decimateTrack M obs ctx orig).2, f dta = false) := by
  cases orig with
  | nil =>
    left
    intro c hc
    exact absurd hc (List.not_mem_nil c)
  | cons k0 rest =>
    exact decimateLoop_len_eq M obs ctx (k0 :: rest) rest.length 0 (k0 :: rest) hlen

theorem decimateTrack_reduction {V : Type} (M : TrackMetric V)
    (obs : Option (ObsData → Bool)) (ctx : DecimCtx) (orig : List (Keyframe V)) :
    ((decimateTrack M obs ctx orig).1).length ≤ orig.length ∧
      (((decimateTrack M obs ctx orig).1).length = orig.length →
        (∀ c ∈ interiorCandidates M ctx.d orig orig, accepts ctx.budget c.err2 = false) ∨
          (∃ f, obs = some f ∧ ∃ dta ∈ (decimateTrack M obs ctx orig).2, f dta = false)) :=
  ⟨(decimateLoop_sublist M obs ctx orig orig.length 0 orig).length_le,
   decimateTrack_len_eq M obs ctx orig⟩

/-- Fixture: an optimizer whose observer cancels every attempted removal. -/
def optCancel : AnimationOptimizer := ⟨defaultSetting, [], some (fun _ => false)⟩

/-- Counterexample to C3 as stated: with a cancelling observer the run
succeeds, joint 1's output translation track keeps all three keyframes of the
input track, yet the removal of the middle (collinear) keyframe satisfies the
resolved error bound, so equal size does not imply that no removal satisfied
the bound. -/
theorem claim_C3_counterexample :
    (optCancel.run animFix skelFix (some emptyAnimation)).1 = true ∧
      (trackSetAt ((optCancel.run animFix skelFix (some emptyAnimation)).2.getD
            emptyAnimation) 1).translations.length =
        (trackSetAt animFix 1).translations.length ∧
      ¬ (∀ c ∈ interiorCandidates vec3Metric (distOf optCancel 1)
            (trackSetAt animFix 1).translations (trackSetAt animFix 1).translations,
          accepts (budgetOf optCancel skelFix 1) c.err2 = false) :=
  ⟨by with_unfolding_all decide, by with_unfolding_all decide, by with_unfolding_all decide⟩

/-- C3 (amended): whenever AnimationOptimizer::operator() returns true, every
output track has at most as many keyframes as the corresponding input track;
and it has equally many only when no interior-keyframe removal of that track
satisfied the resolved error bound, or the observer cancelled that track's
decimation by returning false on a pushed record. -/
theorem claim_C3_reduction (opt : AnimationOptimizer) (input : RawAnimation)
    (skel : Skeleton) (out : Option RawAnimation) (j : ℕ)
    (hrun : (opt.run input skel out).1 = true) :
    ((trackSetAt ((opt.run input skel out).2.getD emptyAnimation) j).translations.length ≤
        (trackSetAt input j).translations.length ∧
      ((trackSetAt ((opt.run input skel out).2.getD emptyAnimation) j).translations.length =
          (trackSetAt input j).translations.length →
        (∀ c ∈ interiorCandidates vec3Metric (distOf opt j)
            (trackSetAt input j).translations (trackSetAt input j).translations,
          accepts (budgetOf opt skel j) c.err2 = false) ∨
          (∃ f, opt.observer = some f ∧
            ∃ dta ∈ (decimateTrack vec3Metric opt.observer
                (trackCtx opt skel j 0 (trackSetAt input j).translations.length)
                (trackSetAt input j).translations).2, f dta = false))) ∧
    ((trackSetAt ((opt.run input skel out).2.getD emptyAnimation) j).rotations.length ≤
        (trackSetAt input j).rotations.length ∧
      ((trackSetAt ((opt.run input skel out).2.getD emptyAnimation) j).rotations.length =
          (trackSetAt input j).rotations.length →
        (∀ c ∈ interiorCandidates quatMetric (distOf opt j)
            (trackSetAt input j).rotations (trackSetAt input j).rotations,
          accepts (budgetOf opt skel j) c.err2 = false) ∨
          (∃ f, opt.observer = some f ∧
            ∃ dta ∈ (decimateTrack quatMetric opt.observer
                (trackCtx opt skel j 1 (trackSetAt input j).rotations.length)
                (trackSetAt input j).rotations).2, f dta = false))) ∧
    ((trackSetAt ((opt.run input skel out).2.getD emptyAnimation) j).scales.length ≤
        (trackSetAt input j).scales.length ∧
      ((trackSetAt ((opt.run input skel out).2.getD emptyAnimation) j).scales.length =
          (trackSetAt input j).scales.length →
        (∀ c ∈ interiorCandidates vec3Metric (distOf opt j)
            (trackSetAt input j).scales (trackSetAt input j).scales,
          accepts (budgetOf opt skel j) c.err2 = false) ∨
          (∃ f, opt.observer = some f ∧
            ∃ dta ∈ (decimateTrack vec3Metric opt.observer
                (trackCtx opt skel j 2 (trackSetAt input j).scales.length)
                (trackSetAt input j).scales).2, f dta = false))) := by
  rcases run_fst_true_elim opt input skel out hrun with ⟨hout, _⟩
  rw [hout, Option.getD_some]
  by_cases hj : j < input.tracks.length
  · rw [trackSetAt_build opt input skel j hj]
    exact ⟨decimateTrack_reduction vec3Metric opt.observer _ _,
      decimateTrack_reduction quatMetric opt.observer _ _,
      decimateTrack_reduction vec3Metric opt.observer _ _⟩
  · rw [trackSetAt_build_ge opt input skel j (le_of_not_lt hj),
      trackSetAt_ge input j (le_of_not_lt hj)]
    refine ⟨⟨le_refl _, ?_⟩, ⟨le_refl _, ?_⟩, ⟨le_refl _, ?_⟩⟩ <;>
      { intro _
        left
        intro c hc
        exact absurd hc (List.not_mem_nil c) }

/-- Witness for C3 (amended): on the fixture run without observer the theorem
applies; joint 1's output translation track is shorter than the input track. -/
theorem claim_C3_witness :
    (optFix.run animFix skelFix (some emptyAnimation)).1 = true ∧
      (trackSetAt ((optFix.run animFix skelFix (some emptyAnimation)).2.getD
            emptyAnimation) 1).translations.length ≤
        (trackSetAt animFix 1).translations.length :=
  ⟨by with_unfolding_all decide,
   ((claim_C3_reduction optFix animFix skelFix (some emptyAnimation) 1
      (by with_unfolding_all decide)).1).1⟩

/-- A default observer record, used only as the out-of-range fallback of
indexed access into pushed-record lists. -/
def dfltObs : ObsData := ⟨0, 0, 0, 0, 0, 0, 0, 0, 0, 0, 0, 0⟩

theorem decimateLoop_trace_spec {V : Type} (M : TrackMetric V) (f : ObsData → Bool)
    (ctx : DecimCtx) (orig : List (Keyframe V)) :
    ∀ fuel iter cur i,
      i < ((decimateLoop M (some f) ctx orig fuel iter cur).2).length →
      ((((decimateLoop M (some f) ctx orig fuel iter cur).2).getD i dfltObs).joint = ctx.joint ∧
        (((decimateLoop M (some f) ctx orig fuel iter cur).2).getD i dfltObs).ty = ctx.ty ∧
        (((decimateLoop M (some f) ctx orig fuel iter cur).2).getD i dfltObs).target_error =
          ctx.budget ∧
        (((decimateLoop M (some f) ctx orig fuel iter cur).2).getD i dfltObs).distance = ctx.d ∧
        (((decimateLoop M (some f) ctx orig fuel iter cur).2).getD i dfltObs).original_size =
          ctx.origLen ∧
        (((decimateLoop M (some f) ctx orig fuel iter cur).2).getD i dfltObs).own_tolerance =
          ctx.ownTol ∧
        (((decimateLoop M (some f) ctx orig fuel iter cur).2).getD i dfltObs).hierarchyWeight =
          ctx.weight ∧
        (((decimateLoop M (some f) ctx orig fuel iter cur).2).getD i dfltObs).iteration =
          iter + i ∧
        (((decimateLoop M (some f) ctx orig fuel iter cur).2).getD i dfltObs).validated_size =
          cur.length - i ∧
        (((decimateLoop M (some f) ctx orig fuel iter cur).2).getD i
              dfltObs).candidate_size + 1 =
          (((decimateLoop M (some f) ctx orig fuel iter cur).2).getD i
            dfltObs).validated_size) := by
  intro fuel
  induction fuel with
  | zero =>
    intro iter cur i hlt
    exact absurd hlt (Nat.not_lt_zero i)
  | succ fuel ih =>
    intro iter cur i hlt
    rw [decimateLoop] at hlt ⊢
    revert hlt
    cases hcand : interiorCandidates M ctx.d orig cur with
    | nil =>
      intro hlt
      exact absurd hlt (Nat.not_lt_zero i)
    | cons c cs =>
      intro hlt
      have hbestmem : selectBest c cs ∈ interiorCandidates M ctx.d orig cur := by
        rw [hcand]
        exact selectBest_mem cs c
      have hblen := interiorCandidate_length M ctx.d orig cur hbestmem
      try dsimp only at hlt ⊢
      by_cases hk : f (mkObsData ctx iter cur.length (selectBest c cs).err2) = true
      · rw [if_pos hk] at hlt ⊢
        by_cases hacc : accepts ctx.budget (selectBest c cs).err2 = true
        · rw [if_pos hacc] at hlt ⊢
          try dsimp only at hlt ⊢
          cases i with
          | zero =>
            refine ⟨rfl, rfl, rfl, rfl, rfl, rfl, rfl, rfl, rfl, ?_⟩
            show cur.length - 1 + 1 = cur.length
            omega
          | succ i2 =>
            have hlt2 : i2 <
                ((decimateLoop M (some f) ctx orig fuel (iter + 1)
                  (selectBest c cs).track).2).length := by
              simp only [List.singleton_append, List.length_cons] at hlt
              omega
            obtain ⟨g1, g2, g3, g4, g5, g6, g7, g8, g9, g10⟩ :=
              ih (iter + 1) (selectBest c cs).track i2 hlt2
            refine ⟨g1, g2, g3, g4, g5, g6, g7, ?_, ?_, g10⟩
            · exact g8.trans (by omega)
            · exact g9.trans (by omega)
        · rw [if_neg hacc] at hlt ⊢
          try dsimp only at hlt ⊢
          cases i with
          | zero =>
            refine ⟨rfl, rfl, rfl, rfl, rfl, rfl, rfl, rfl, rfl, ?_⟩
            show cur.length - 1 + 1 = cur.length
            omega
          | succ i2 =>
            exact absurd hlt (by simp)
      · rw [if_neg hk] at hlt ⊢
        try dsimp only at hlt ⊢
        cases i with
        | zero =>
          refine ⟨rfl, rfl, rfl, rfl, rfl, rfl, rfl, rfl, rfl, ?_⟩
          show cur.length - 1 + 1 = cur.length
          omega
        | succ i2 =>
          exact absurd hlt (by simp)

theorem decimateLoop_trace_stop {V : Type} (M : TrackMetric V) (f : ObsData → Bool)
    (ctx : DecimCtx) (orig : List (Keyframe V)) :
    ∀ fuel iter cur i,
      i < ((decimateLoop M (some f) ctx orig fuel iter cur).2).length →
      f (((decimateLoop M (some f) ctx orig fuel iter cur).2).getD i dfltObs) = false →
      i + 1 = ((decimateLoop M (some f) ctx orig fuel iter cur).2).length ∧
        ((decimateLoop M (some f) ctx orig fuel iter cur).1).length =
          (((decimateLoop M (some f) ctx orig fuel iter cur).2).getD i
            dfltObs).validated_size := by
  intro fuel
  induction fuel with
  | zero =>
    intro iter cur i hlt _
    exact absurd hlt (Nat.not_lt_zero i)
  | succ fuel ih =>
    intro iter cur i hlt hf
    rw [decimateLoop] at hlt hf ⊢
    revert hlt hf
    cases hcand : interiorCandidates M ctx.d orig cur with
    | nil =>
      intro hlt _
      exact absurd hlt (Nat.not_lt_zero i)
    | cons c cs =>
      intro hlt hf
      try dsimp only at hlt hf ⊢
      by_cases hk : f (mkObsData ctx iter cur.length (selectBest c cs).err2) = true
      · rw [if_pos hk] at hlt hf ⊢
        by_cases hacc : accepts ctx.budget (selectBest c cs).err2 = true
        · rw [if_pos hacc] at hlt hf ⊢
          cases i with
          | zero =>
            have hfd : f (mkObsData ctx iter cur.length (selectBest c cs).err2) = false := hf
            rw [hk] at hfd
            cases hfd
          | succ i2 =>
            have hlt2 : i2 <
                ((decimateLoop M (some f) ctx orig fuel (iter + 1)
                  (selectBest c cs).track).2).length := by
              simp only [List.singleton_append, List.length_cons] at hlt
              omega
            have hf2 : f (((decimateLoop M (some f) ctx orig fuel (iter + 1)
                (selectBest c cs).track).2).getD i2 dfltObs) = false := hf
            obtain ⟨p1, p2⟩ := ih (iter + 1) (selectBest c cs).track i2 hlt2 hf2
            constructor
            · simp only [List.singleton_append, List.length_cons]
              omega
            · exact p2
        · rw [if_neg hacc] at hlt hf ⊢
          cases i with
          | zero =>
            have hfd : f (mkObsData ctx iter cur.length (selectBest c cs).err2) = false := hf
            rw [hk] at hfd
            cases hfd
          | succ i2 =>
            exact absurd hlt (by simp)
      · rw [if_neg hk] at hlt hf ⊢
        cases i with
        | zero => exact ⟨rfl, rfl⟩
        | succ i2 =>
          exact absurd hlt (by simp)

/-- C7: with an observer set, the decimator pushes exactly one fully populated
record per attempted removal: the pushed records carry the decimation
context's joint, track kind, target error, distance, original size, own
tolerance and hierarchy error ratio, consecutive iteration numbers starting
at zero, the exact validated size before the attempt and a candidate size one
below it; whenever Push returns false on a record, that record is the last
one pushed (decimation of the track stops immediately) and the returned track
is the validated set of that very attempt; and a cancelling observer never
makes the overall call fail on a valid input. -/
theorem claim_C7_observer_contract :
    (∀ (V : Type) (M : TrackMetric V) (f : ObsData → Bool) (ctx : DecimCtx)
        (orig : List (Keyframe V)) (i : ℕ),
      i < ((decimateTrack M (some f) ctx orig).2).length →
      ((((decimateTrack M (some f) ctx orig).2).getD i dfltObs).joint = ctx.joint ∧
        (((decimateTrack M (some f) ctx orig).2).getD i dfltObs).ty = ctx.ty ∧
        (((decimateTrack M (some f) ctx orig).2).getD i dfltObs).target_error = ctx.budget ∧
        (((decimateTrack M (some f) ctx orig).2).getD i dfltObs).distance = ctx.d ∧
        (((decimateTrack M (some f) ctx orig).2).getD i dfltObs).original_size = ctx.origLen ∧
        (((decimateTrack M (some f) ctx orig).2).getD i dfltObs).own_tolerance = ctx.ownTol ∧
        (((decimateTrack M (some f) ctx orig).2).getD i dfltObs).hierarchyWeight = ctx.weight ∧
        (((decimateTrack M (some f) ctx orig).2).getD i dfltObs).iteration = i ∧
        (((decimateTrack M (some f) ctx orig).2).getD i dfltObs).validated_size =
          orig.length - i ∧
        (((decimateTrack M (some f) ctx orig).2).getD i dfltObs).candidate_size + 1 =
          (((decimateTrack M (some f) ctx orig).2).getD i dfltObs).validated_size)) ∧
    (∀ (V : Type) (M : TrackMetric V) (f : ObsData → Bool) (ctx : DecimCtx)
        (orig : List (Keyframe V)) (i : ℕ),
      i < ((decimateTrack M (some f) ctx orig).2).length →
      f (((decimateTrack M (some f) ctx orig).2).getD i dfltObs) = false →
      i + 1 = ((decimateTrack M (some f) ctx orig).2).length ∧
        ((decimateTrack M (some f) ctx orig).1).length =
          (((decimateTrack M (some f) ctx orig).2).getD i dfltObs).validated_size) ∧
    (∀ (opt : AnimationOptimizer) (f : ObsData → Bool) (input : RawAnimation)
        (skel : Skeleton) (prior : RawAnimation), input.Validate = true →
      input.tracks.length = skel.num_joints →
      ((AnimationOptimizer.run { opt with observer := some f } input skel
          (some prior)).1) = true) := by
  refine ⟨?_, ?_, ?_⟩
  · intro V M f ctx orig i hlt
    obtain ⟨g1, g2, g3, g4, g5, g6, g7, g8, g9, g10⟩ :=
      decimateLoop_trace_spec M f ctx orig orig.length 0 orig i hlt
    exact ⟨g1, g2, g3, g4, g5, g6, g7, g8.trans (Nat.zero_add i), g9, g10⟩
  · intro V M f ctx orig i hlt hf
    exact decimateLoop_trace_stop M f ctx orig orig.length 0 orig i hlt hf
  · intro opt f input skel prior hv hc
    rw [AnimationOptimizer.run_true _ input skel prior hv hc]

/-- Witness for C7: the all-cancelling observer on the fixture's collinear
translation track receives exactly one record (iteration zero), its rejection
ends the decimation with the track kept at the recorded validated size, and
the overall run on the fixture animation still succeeds. -/
theorem claim_C7_witness :
    0 < ((decimateTrack vec3Metric (some (fun _ => false))
        (trackCtx optCancel skelFix 1 0 3) tracksFix.translations).2).length ∧
      (((decimateTrack vec3Metric (some (fun _ => false))
          (trackCtx optCancel skelFix 1 0 3) tracksFix.translations).2).getD 0
            dfltObs).iteration = 0 ∧
      0 + 1 = ((decimateTrack vec3Metric (some (fun _ => false))
          (trackCtx optCancel skelFix 1 0 3) tracksFix.translations).2).length ∧
      ((AnimationOptimizer.run { optFix with observer := some (fun _ => false) } animFix
          skelFix (some emptyAnimation)).1) = true :=
  ⟨by with_unfolding_all decide,
   ((claim_C7_observer_contract.1 Vec3 vec3Metric (fun _ => false)
       (trackCtx optCancel skelFix 1 0 3) tracksFix.translations 0
       (by with_unfolding_all decide)).2.2.2.2.2.2.2.1),
   (claim_C7_observer_contract.2.1 Vec3 vec3Metric (fun _ => false)
       (trackCtx optCancel skelFix 1 0 3) tracksFix.translations 0
       (by with_unfolding_all decide) (by with_unfolding_all decide)).1,
   claim_C7_observer_contract.2.2 optFix (fun _ => false) animFix skelFix emptyAnimation
     (by with_unfolding_all decide) (by with_unfolding_all decide)⟩

theorem collapseTrack_valid {V : Type} (dur : ℚ) (b : Bool) (l : List (Keyframe V))
    (h : validTrackB dur l = true) : validTrackB dur (collapseTrack b l) = true := by
  rcases (validTrackB_iff dur l).mp h with ⟨hne, _, hall⟩
  unfold collapseTrack
  cases b with
  | false => exact h
  | true =>
    cases l with
    | nil => exact absurd rfl hne
    | cons k0 rest =>
      refine (validTrackB_iff dur _).mpr ⟨by simp, ?_, ?_⟩
      · exact List.pairwise_singleton _ k0
      · intro k hk
        rcases List.mem_singleton.mp hk with h2
        exact h2 ▸ hall k0 (List.mem_cons_self k0 rest)

theorem buildConstant_valid (copt : AnimationConstantOptimizer) (input : RawAnimation)
    (hv : input.Validate = true) : (buildConstant copt input).Validate = true := by
  rcases (RawAnimation.Validate_iff input).mp hv with ⟨hd, hall⟩
  refine (RawAnimation.Validate_iff _).mpr ⟨hd, ?_⟩
  intro jt hjt
  rcases List.mem_map.mp hjt with ⟨jt0, hjt0, hjteq⟩
  rcases hall jt0 hjt0 with ⟨h1, h2, h3⟩
  rw [← hjteq]
  exact ⟨collapseTrack_valid _ _ _ h1, collapseTrack_valid _ _ _ h2,
    collapseTrack_valid _ _ _ h3⟩

theorem constantRun_eq_true (copt : AnimationConstantOptimizer)
    (input : RawAnimation) (prior : RawAnimation) (hv : input.Validate = true) :
    copt.run input (some prior) = (true, some (buildConstant copt input)) := by
  unfold AnimationConstantOptimizer.run
  rw [if_pos (buildConstant_valid copt input hv)]

theorem collapseTrack_head {V : Type} (l : List (Keyframe V)) (k0 : Keyframe V)
    (hh : l.head? = some k0) : collapseTrack true l = [k0] := by
  cases l with
  | nil => cases hh
  | cons a rest =>
    rw [List.head?_cons, Option.some.injEq] at hh
    rw [hh]
    rfl

theorem trackSetAt_buildConstant (copt : AnimationConstantOptimizer)
    (input : RawAnimation) (j : ℕ) (hj : j < input.tracks.length) :
    trackSetAt (buildConstant copt input) j = stripJointTracks copt (trackSetAt input j) := by
  unfold trackSetAt buildConstant
  rw [List.getD_eq_getElem?_getD, List.getElem?_map, List.getD_eq_getElem?_getD]
  rw [List.getElem?_eq_getElem hj]
  rfl

/-- C8: AnimationConstantOptimizer::operator() (which takes no skeleton, so no
hierarchy error accounting is involved) collapses every track that is
constant within the matching per-kind tolerance — translation and scale by
euclidean distance against translation_tolerance / scale_tolerance relative
to the first keyframe, rotation by the quaternion comparison whose
rotation_tolerance is the cosine of half the tolerance angle — to the single
keyframe holding the constant, and the call succeeds on valid input. -/
theorem claim_C8_constant_collapse (copt : AnimationConstantOptimizer)
    (input : RawAnimation) (prior : RawAnimation) (hval : input.Validate = true) :
    (copt.run input (some prior)).1 = true ∧
      ∀ j : ℕ,
        (∀ k0, (trackSetAt input j).translations.head? = some k0 →
          vecConstantB copt.translation_tolerance (trackSetAt input j).translations = true →
          (trackSetAt ((copt.run input (some prior)).2.getD emptyAnimation) j).translations =
            [k0]) ∧
        (∀ k0, (trackSetAt input j).rotations.head? = some k0 →
          quatConstantB copt.rotation_tolerance (trackSetAt input j).rotations = true →
          (trackSetAt ((copt.run input (some prior)).2.getD emptyAnimation) j).rotations =
            [k0]) ∧
        (∀ k0, (trackSetAt input j).scales.head? = some k0 →
          vecConstantB copt.scale_tolerance (trackSetAt input j).scales = true →
          (trackSetAt ((copt.run input (some prior)).2.getD emptyAnimation) j).scales =
            [k0]) := by
  rw [constantRun_eq_true copt input prior hval]
  refine ⟨rfl, ?_⟩
  intro j
  simp only [Option.getD_some]
  by_cases hj : j < input.tracks.length
  · rw [trackSetAt_buildConstant copt input j hj]
    unfold stripJointTracks
    refine ⟨?_, ?_, ?_⟩
    · intro k0 hh hconst
      show collapseTrack (vecConstantB copt.translation_tolerance
        (trackSetAt input j).translations) (trackSetAt input j).translations = [k0]
      rw [hconst]
      exact collapseTrack_head _ k0 hh
    · intro k0 hh hconst
      show collapseTrack (quatConstantB copt.rotation_tolerance
        (trackSetAt input j).rotations) (trackSetAt input j).rotations = [k0]
      rw [hconst]
      exact collapseTrack_head _ k0 hh
    · intro k0 hh hconst
      show collapseTrack (vecConstantB copt.scale_tolerance
        (trackSetAt input j).scales) (trackSetAt input j).scales = [k0]
      rw [hconst]
      exact collapseTrack_head _ k0 hh
  · rw [trackSetAt_ge input j (le_of_not_lt hj)]
    refine ⟨?_, ?_, ?_⟩ <;>
      { intro k0 hh _
        cases hh }

/-- Fixture: a one-joint animation whose three tracks are all exactly
constant over two keyframes. -/
def animConst : RawAnimation :=
  ⟨1, [{ translations := [⟨0, ⟨0, 0, 0⟩⟩, ⟨1, ⟨0, 0, 0⟩⟩]
         rotations := [⟨0, ⟨0, 0, 0, 1⟩⟩, ⟨1, ⟨0, 0, 0, 1⟩⟩]
         scales := [⟨0, ⟨1, 1, 1⟩⟩, ⟨1, ⟨1, 1, 1⟩⟩] }]⟩

/-- Witness for C8: on the constant fixture the run succeeds and the
translation and rotation tracks collapse to their single first keyframes. -/
theorem claim_C8_witness :
    (coptFix.run animConst (some emptyAnimation)).1 = true ∧
      (trackSetAt ((coptFix.run animConst (some emptyAnimation)).2.getD emptyAnimation)
          0).translations = [⟨0, ⟨0, 0, 0⟩⟩] ∧
      (trackSetAt ((coptFix.run animConst (some emptyAnimation)).2.getD emptyAnimation)
          0).rotations = [⟨0, ⟨0, 0, 0, 1⟩⟩] :=
  ⟨(claim_C8_constant_collapse coptFix animConst emptyAnimation
      (by with_unfolding_all decide)).1,
   ((claim_C8_constant_collapse coptFix animConst emptyAnimation
      (by with_unfolding_all decide)).2 0).1 ⟨0, ⟨0, 0, 0⟩⟩ (by with_unfolding_all decide)
      (by with_unfolding_all decide),
   (((claim_C8_constant_collapse coptFix animConst emptyAnimation
      (by with_unfolding_all decide)).2 0).2.1 ⟨0, ⟨0, 0, 0, 1⟩⟩
      (by with_unfolding_all decide) (by with_unfolding_all decide))⟩

theorem chainUp_mono (parents : List (Option ℕ)) (j : ℕ) :
    ∀ f f2 k, f ≤ f2 → chainUp parents j f k = true → chainUp parents j f2 k = true := by
  intro f
  induction f with
  | zero =>
    intro f2 k _ h
    cases h
  | succ f ih =>
    intro f2 k hle h
    cases f2 with
    | zero => omega
    | succ f2 =>
      rw [chainUp] at h ⊢
      rw [Bool.or_eq_true] at h ⊢
      rcases h with h | h
      · exact Or.inl h
      · right
        revert h
        cases hp : parents.getD k none with
        | none =>
          intro h
          cases h
        | some p =>
          intro h
          rw [Bool.and_eq_true] at h ⊢
          exact ⟨h.1, ih f2 p (by omega) h.2⟩

theorem chainUp_sufficient (parents : List (Option ℕ)) (j : ℕ) :
    ∀ k f, chainUp parents j f k = true → chainUp parents j (k + 1) k = true := by
  intro k
  induction k using Nat.strong_induction_on with
  | _ k ihk =>
    intro f h
    cases f with
    | zero => cases h
    | succ f =>
      rw [chainUp] at h
      rw [Bool.or_eq_true] at h
      rcases h with h | h
      · rw [chainUp, Bool.or_eq_true]
        exact Or.inl h
      · revert h
        cases hp : parents.getD k none with
        | none =>
          intro h
          cases h
        | some p =>
          intro h
          rw [Bool.and_eq_true, decide_eq_true_eq] at h
          have hpk : p < k := h.1
          have hsuf := ihk p hpk f h.2
          have hmono := chainUp_mono parents j (p + 1) k p (by omega) hsuf
          rw [chainUp, Bool.or_eq_true]
          right
          rw [hp]
          rw [Bool.and_eq_true, decide_eq_true_eq]
          exact ⟨hpk, hmono⟩

theorem inSubtree_self (parents : List (Option ℕ)) (j : ℕ) :
    inSubtree parents j j = true := by
  rw [inSubtree, chainUp, Bool.or_eq_true]
  left
  exact beq_self_eq_true j

theorem inSubtree_parent (parents : List (Option ℕ)) (j k p : ℕ)
    (hp : parents.getD k none = some p) (hpk : p < k) (h : inSubtree parents j p = true) :
    inSubtree parents j k = true := by
  rw [inSubtree] at h ⊢
  have hmono := chainUp_mono parents j (p + 1) k p (by omega) h
  rw [chainUp, Bool.or_eq_true]
  right
  rw [hp, Bool.and_eq_true, decide_eq_true_eq]
  exact ⟨hpk, hmono⟩

theorem inSubtree_dest (parents : List (Option ℕ)) (j k : ℕ)
    (h : inSubtree parents j k = true) :
    k = j ∨ ∃ p, parents.getD k none = some p ∧ p < k ∧ inSubtree parents j p = true := by
  rw [inSubtree, chainUp, Bool.or_eq_true] at h
  rcases h with h | h
  · exact Or.inl (beq_iff_eq.mp h)
  · right
    revert h
    cases hp : parents.getD k none with
    | none =>
      intro h
      cases h
    | some p =>
      intro h
      rw [Bool.and_eq_true, decide_eq_true_eq] at h
      exact ⟨p, rfl, h.1, chainUp_sufficient parents j p k h.2⟩

theorem inSubtree_le (parents : List (Option ℕ)) (j : ℕ) :
    ∀ k, inSubtree parents j k = true → j ≤ k := by
  intro k
  induction k using Nat.strong_induction_on with
  | _ k ihk =>
    intro h
    rcases inSubtree_dest parents j k h with h | ⟨p, _, hpk, hsub⟩
    · exact le_of_eq h.symm
    · exact le_trans (ihk p hpk hsub) (le_of_lt hpk)

theorem inSubtree_trans (parents : List (Option ℕ)) (j c : ℕ)
    (hjc : inSubtree parents j c = true) :
    ∀ k, inSubtree parents c k = true → inSubtree parents j k = true := by
  intro k
  induction k using Nat.strong_induction_on with
  | _ k ihk =>
    intro h
    rcases inSubtree_dest parents c k h with h | ⟨p, hp, hpk, hsub⟩
    · exact h ▸ hjc
    · exact inSubtree_parent parents j k p hp hpk (ihk p hpk hsub)

theorem subtree_split (parents : List (Option ℕ)) (j : ℕ) :
    ∀ k, inSubtree parents j k = true → k ≠ j →
      ∃ c, parents.getD c none = some j ∧ j < c ∧ inSubtree parents c k = true := by
  intro k
  induction k using Nat.strong_induction_on with
  | _ k ihk =>
    intro h hne
    rcases inSubtree_dest parents j k h with h | ⟨p, hp, hpk, hsub⟩
    · exact absurd h hne
    · by_cases hpj : p = j
      · subst hpj
        exact ⟨k, hp, hpk, inSubtree_self parents k⟩
      · rcases ihk p hpk hsub hpj with ⟨c, hc1, hc2, hc3⟩
        exact ⟨c, hc1, hc2, inSubtree_parent parents c k p hp hpk hc3⟩

theorem mem_childrenOf (parents : List (Option ℕ)) (j c : ℕ) :
    c ∈ childrenOf parents j ↔ c < parents.length ∧ parents.getD c none = some j := by
  unfold childrenOf
  rw [List.mem_filter, List.mem_range]
  constructor
  · rintro ⟨h1, h2⟩
    exact ⟨h1, beq_iff_eq.mp h2⟩
  · rintro ⟨h1, h2⟩
    exact ⟨h1, beq_iff_eq.mpr h2⟩

theorem validParentsB_elim (skel : Skeleton) (h : validParentsB skel = true) :
    ∀ c p, skel.parents.getD c none = some p → p < c := by
  intro c p hcp
  by_cases hc : c < skel.parents.length
  · unfold validParentsB at h
    have h2 := List.all_eq_true.mp h c (List.mem_range.mpr hc)
    rw [hcp] at h2
    simpa using h2
  · have hnone : skel.parents.getD c none = none := by
      rw [List.getD_eq_getElem?_getD, List.getElem?_eq_none (le_of_not_lt hc)]
      rfl
    rw [hnone] at hcp
    cases hcp

theorem resolveAux_spec (own : ℕ → ℚ) (parents : List (Option ℕ))
    (hvp : ∀ c p, parents.getD c none = some p → p < c) :
    ∀ fuel j, j < parents.length → parents.length - j ≤ fuel →
      resolveAux own parents fuel j = subtreeMinSpec own parents j := by
  intro fuel
  induction fuel with
  | zero =>
    intro j hj hf
    omega
  | succ fuel ih =>
    intro j hj hf
    apply le_antisymm
    · unfold subtreeMinSpec
      refine le_foldlMin _ _ ?_ ?_
      · rw [resolveAux]
        exact foldlMin_le_init _ _ _
      · intro k hk
        rcases List.mem_filter.mp hk with ⟨hkr, hks⟩
        have hkn := List.mem_range.mp hkr
        by_cases hkj : k = j
        · subst hkj
          rw [resolveAux]
          exact foldlMin_le_init _ _ _
        · rcases subtree_split parents j k hks hkj with ⟨c, hc1, hc2, hc3⟩
          have hck : c ≤ k := inSubtree_le parents c k hc3
          have hcn : c < parents.length := lt_of_le_of_lt hck hkn
          have hcmem : c ∈ childrenOf parents j := (mem_childrenOf parents j c).mpr ⟨hcn, hc1⟩
          have h1 : resolveAux own parents (fuel + 1) j ≤ resolveAux own parents fuel c := by
            rw [resolveAux]
            exact foldlMin_le_elem _ hcmem _
          have h2 : resolveAux own parents fuel c = subtreeMinSpec own parents c :=
            ih c hcn (by omega)
          have h3 : subtreeMinSpec own parents c ≤ own k := by
            unfold subtreeMinSpec
            exact foldlMin_le_elem _ (List.mem_filter.mpr ⟨hkr, hc3⟩) _
          exact le_trans h1 (h2.le.trans h3)
    · rw [resolveAux]
      refine le_foldlMin _ _ ?_ ?_
      · unfold subtreeMinSpec
        exact foldlMin_le_init _ _ _
      · intro c hcmem
        rcases (mem_childrenOf parents j c).mp hcmem with ⟨hcn, hc1⟩
        have hjc : j < c := hvp c j hc1
        have hsubc : inSubtree parents j c = true :=
          inSubtree_parent parents j c j hc1 hjc (inSubtree_self parents j)
        have h2 : resolveAux own parents fuel c = subtreeMinSpec own parents c :=
          ih c hcn (by omega)
        rw [h2]
        unfold subtreeMinSpec
        refine le_foldlMin _ _ ?_ ?_
        · exact foldlMin_le_elem _ (List.mem_filter.mpr
            ⟨List.mem_range.mpr hcn, hsubc⟩) _
        · intro k hk
          rcases List.mem_filter.mp hk with ⟨hkr, hks⟩
          exact foldlMin_le_elem _ (List.mem_filter.mpr ⟨hkr,
            inSubtree_trans parents j c hsubc k hks⟩) _

theorem lookupOverride_cons (e : ℕ × Setting) (rest : List (ℕ × Setting)) (k : ℕ) :
    lookupOverride (e :: rest) k =
      if e.1 = k then some e.2 else lookupOverride rest k := by
  cases he : (e.1 == k) with
  | true =>
    rw [if_pos (beq_iff_eq.mp he)]
    simp [lookupOverride, List.find?, he]
  | false =>
    have hne : ¬ e.1 = k := by
      intro h
      rw [beq_iff_eq.mpr h] at he
      cases he
    rw [if_neg hne]
    simp [lookupOverride, List.find?, he]

theorem lookupOverride_insert (m : List (ℕ × Setting)) (d : ℕ) (t : Setting) (k : ℕ) :
    lookupOverride (insertOverride m d t) k =
      if k = d then some t else lookupOverride m k := by
  induction m with
  | nil =>
    rw [show insertOverride [] d t = [(d, t)] from rfl, lookupOverride_cons]
    by_cases hkd : k = d
    · rw [if_pos (show (d, t).1 = k from hkd.symm), if_pos hkd]
    · rw [if_neg (show ¬ (d, t).1 = k from fun h => hkd h.symm), if_neg hkd]
  | cons e rest ih =>
    unfold insertOverride
    by_cases hed : e.1 = d
    · rw [if_pos hed, lookupOverride_cons, lookupOverride_cons]
      by_cases hkd : k = d
      · rw [if_pos (show (d, t).1 = k from hkd.symm), if_pos hkd]
      · rw [if_neg (show ¬ (d, t).1 = k from fun h => hkd h.symm), if_neg hkd,
          if_neg (show ¬ e.1 = k from fun h => hkd (hed ▸ h).symm)]
    · rw [if_neg hed, lookupOverride_cons, ih, lookupOverride_cons]
      by_cases hek : e.1 = k
      · by_cases hkd : k = d
        · exact absurd (hek.trans hkd) hed
        · rw [if_pos hek, if_neg hkd, if_pos hek]
      · by_cases hkd : k = d
        · rw [if_neg hek, if_pos hkd, if_pos hkd]
        · rw [if_neg hek, if_neg hkd, if_neg hkd, if_neg hek]

theorem resolveAux_mono_own (own own' : ℕ → ℚ) (parents : List (Option ℕ))
    (h : ∀ k, own' k ≤ own k) :
    ∀ fuel j, resolveAux own' parents fuel j ≤ resolveAux own parents fuel j := by
  intro fuel
  induction fuel with
  | zero => exact h
  | succ fuel ih =>
    intro j
    rw [resolveAux, resolveAux]
    exact foldlMin_mono _ _ _ (h j) (fun c _ => ih c)

theorem ownTolFn_insert_le (opt : AnimationOptimizer) (d : ℕ) (t : Setting)
    (ht : t.tolerance ≤ ownTolFn opt d) (k : ℕ) :
    ownTolFn
        { opt with joints_setting_override :=
            insertOverride opt.joints_setting_override d t } k ≤ ownTolFn opt k := by
  unfold ownTolFn ownSettingOf
  dsimp only
  rw [lookupOverride_insert]
  by_cases hk : k = d
  · subst hk
    rw [if_pos rfl]
    exact ht
  · rw [if_neg hk]

theorem resolveAux_le_own (own : ℕ → ℚ) (parents : List (Option ℕ)) :
    ∀ fuel j, resolveAux own parents fuel j ≤ own j := by
  intro fuel j
  cases fuel with
  | zero => exact le_refl _
  | succ fuel =>
    rw [resolveAux]
    exact foldlMin_le_init _ _ _

theorem budgetOf_eq_resolved (opt : AnimationOptimizer) (skel : Skeleton)
    (h : nonnegTolB opt = true) (j : ℕ) :
    budgetOf opt skel j = resolvedToleranceOf opt skel j := by
  unfold budgetOf hierarchyWeightOf
  by_cases h0 : ownTolFn opt j = 0
  · rw [if_pos h0, h0]
    have hle : resolvedToleranceOf opt skel j ≤ 0 := by
      rw [← h0]
      exact resolveAux_le_own _ _ _ _
    have hge : 0 ≤ resolvedToleranceOf opt skel j :=
      resolveAux_nonneg _ _ (ownTolFn_nonneg opt h) _ _
    rw [le_antisymm hle hge]
    ring
  · rw [if_neg h0]
    field_simp

/-- C4: the Hierarchical Tolerance Resolver. First, under valid settings the
error budget the optimizer uses for a joint is exactly its resolved
tolerance. Second, on a well-formed skeleton the bottom-up resolver computes,
for every joint J, the minimum over the subtree rooted at J (J included) of
each joint's override-or-global tolerance — the specification formula
subtreeMinSpec. Third, tightening any single joint's override never increases
the resolved tolerance of any ancestor on its root path. Fourth, inserting an
override looser than the global default at another joint never relaxes an
ancestor above the override tolerance of a different descendant that keeps
its stricter override. -/
theorem claim_C4_resolver :
    (∀ (opt : AnimationOptimizer) (skel : Skeleton) (j : ℕ), nonnegTolB opt = true →
      budgetOf opt skel j = resolvedToleranceOf opt skel j) ∧
    (∀ (opt : AnimationOptimizer) (skel : Skeleton) (j : ℕ), validParentsB skel = true →
      j < skel.num_joints →
      resolvedToleranceOf opt skel j = subtreeMinSpec (ownTolFn opt) skel.parents j) ∧
    (∀ (opt : AnimationOptimizer) (skel : Skeleton) (d : ℕ) (t : Setting) (a : ℕ),
      t.tolerance ≤ ownTolFn opt d → inSubtree skel.parents a d = true →
      resolvedToleranceOf
          { opt with
            joints_setting_override := insertOverride opt.joints_setting_override d t }
          skel a ≤
        resolvedToleranceOf opt skel a) ∧
    (∀ (opt : AnimationOptimizer) (skel : Skeleton) (s a d : ℕ) (st t : Setting),
      validParentsB skel = true → a < skel.num_joints → s < skel.num_joints →
      lookupOverride opt.joints_setting_override s = some st →
      inSubtree skel.parents a s = true → d ≠ s →
      opt.setting.tolerance ≤ t.tolerance →
      resolvedToleranceOf
          { opt with
            joints_setting_override := insertOverride opt.joints_setting_override d t }
          skel a ≤
        st.tolerance) := by
  refine ⟨fun opt skel j h => budgetOf_eq_resolved opt skel h j, ?_, ?_, ?_⟩
  · intro opt skel j hvp hj
    exact resolveAux_spec (ownTolFn opt) skel.parents (validParentsB_elim skel hvp)
      skel.num_joints j hj (Nat.sub_le _ _)
  · intro opt skel d t a ht _
    exact resolveAux_mono_own (ownTolFn opt) _ skel.parents
      (ownTolFn_insert_le opt d t ht) skel.num_joints a
  · intro opt skel s a d st t hvp ha hs hlook hsub hds hloose
    have hspec := resolveAux_spec
      (ownTolFn
        { opt with
          joints_setting_override := insertOverride opt.joints_setting_override d t })
      skel.parents (validParentsB_elim skel hvp) skel.num_joints a ha (Nat.sub_le _ _)
    have hle : subtreeMinSpec
        (ownTolFn
          { opt with
            joints_setting_override := insertOverride opt.joints_setting_override d t })
        skel.parents a ≤
        ownTolFn
          { opt with
            joints_setting_override := insertOverride opt.joints_setting_override d t }
          s := by
      unfold subtreeMinSpec
      exact foldlMin_le_elem _ (List.mem_filter.mpr ⟨List.mem_range.mpr hs, hsub⟩) _
    have heq : ownTolFn
        { opt with
          joints_setting_override := insertOverride opt.joints_setting_override d t }
        s = st.tolerance := by
      unfold ownTolFn ownSettingOf
      dsimp only
      rw [lookupOverride_insert, if_neg (fun h => hds h.symm), hlook]
      rfl
    exact le_of_le_of_eq (hspec.le.trans hle) heq

/-- Fixture: a strict per-joint override (one micrometer). -/
def tightSetting : Setting := ⟨1 / 1000000, 1 / 10⟩

/-- Fixture: an override looser than the global default. -/
def looseSetting : Setting := ⟨1, 1⟩

/-- Fixture: the default optimizer with the tip joint (index 2) overridden to
the strict tolerance. -/
def optOv : AnimationOptimizer := ⟨defaultSetting, [(2, tightSetting)], none⟩

/-- Witness for C4: on the three-joint chain, the budget coincides with the
resolved tolerance, the resolver agrees with the subtree-minimum formula at
the root, tightening the tip never increases the root's resolved tolerance,
and a loose override at the middle joint cannot lift the root above the
tip's strict override. -/
theorem claim_C4_witness :
    (nonnegTolB optFix = true ∧
      budgetOf optFix skelFix 0 = resolvedToleranceOf optFix skelFix 0) ∧
    (validParentsB skelFix = true ∧ 0 < skelFix.num_joints ∧
      resolvedToleranceOf optFix skelFix 0 =
        subtreeMinSpec (ownTolFn optFix) skelFix.parents 0) ∧
    (tightSetting.tolerance ≤ ownTolFn optFix 2 ∧ inSubtree skelFix.parents 0 2 = true ∧
      resolvedToleranceOf
          { optFix with
            joints_setting_override :=
              insertOverride optFix.joints_setting_override 2 tightSetting }
          skelFix 0 ≤
        resolvedToleranceOf optFix skelFix 0) ∧
    (lookupOverride optOv.joints_setting_override 2 = some tightSetting ∧
      defaultSetting.tolerance ≤ looseSetting.tolerance ∧
      resolvedToleranceOf
          { optOv with
            joints_setting_override :=
              insertOverride optOv.joints_setting_override 1 looseSetting }
          skelFix 0 ≤
        tightSetting.tolerance) :=
  ⟨⟨by with_unfolding_all decide,
    claim_C4_resolver.1 optFix skelFix 0 (by with_unfolding_all decide)⟩,
   ⟨by decide, by decide,
    claim_C4_resolver.2.1 optFix skelFix 0 (by decide) (by decide)⟩,
   ⟨by with_unfolding_all decide, by decide,
    claim_C4_resolver.2.2.1 optFix skelFix 2 tightSetting 0
      (by with_unfolding_all decide) (by decide)⟩,
   ⟨rfl, by with_unfolding_all decide,
    claim_C4_resolver.2.2.2 optOv skelFix 2 0 1 tightSetting looseSetting
      (by decide) (by decide) (by decide) rfl (by decide) (by decide)
      (by with_unfolding_all decide)⟩⟩
